import Mathlib

/-!
# Thread registry and scheduler of mkeykernel (`src/kernel/thread.c`)

A shallow embedding of the thread list and the timer-driven scheduler.

* Context records live in a memory `mem : Addr → Option ThreadContext`, addressed by
  the 32-bit address the C code casts to `ThreadContext*`.  `NULL` is address `0`, which is
  never read or written: every access goes through `load`.  Reading or writing through
  `NULL` or an address that holds no record is undefined behaviour in C and is reported
  as `Fault.badAccess`.
* Loops that follow `next` links take a `fuel` argument; running out of it is reported as
  `Fault.outOfFuel`, so a walk over a cyclic list is told apart from a walk that ends.
* `uint32_t` arithmetic is arithmetic on `Nat` modulo `2^32`.
* `kfree` is recorded in a log of the addresses handed to it; it does not change `mem`.
* The stacks live in a separate byte memory `stackBytes`; overlap between stack regions and
  context records is not modelled.
* `interrupts_disable`/`interrupts_enable`, `kprint` and the assembly routine
  `thread_switchToContext` are external; the address handed to `thread_switchToContext`
  is part of the result of `thread_schedule`, and what `thread_show_info` prints is its
  result: one `InfoLine` per printed record and the total.
* Constants of `thread.h`/`gdt.h`, which are not part of the sources at hand, are the fields
  of `Config`.
-/

namespace Thread

/-- A 32-bit address; `0` is `NULL`. -/
abbrev Addr := Nat

/-- Reduction of a natural number to the range of `uint32_t`. -/
def wrap32 (n : Nat) : Nat := n % 4294967296

/-- Constants and types declared in headers outside `thread.c`. -/
structure Config where
  GDT_KERNEL_CODE : Nat
  GDT_KERNEL_DATA : Nat
  THREAD_PRIORITY_NORMAL : Int
  THREAD_NO_REQUEST : Nat
  THREAD_BREAK_ALLOWED : Nat
  THREAD_NAME_LEN : Nat

/-- The interrupted register snapshot `registers_t` (the fields `thread.c` reads). -/
structure registers_t where
  ds : Nat
  es : Nat
  fs : Nat
  gs : Nat
  edi : Nat
  esi : Nat
  ebp : Nat
  esp : Nat
  ebx : Nat
  edx : Nat
  ecx : Nat
  eax : Nat
  eip : Nat
  cs : Nat
  eflags : Nat
  useresp : Nat
  ss : Nat
  deriving DecidableEq, Repr

/-- One context record.  `next` is the address of the successor, `0` for none. -/
structure ThreadContext where
  eax : Nat
  ecx : Nat
  edx : Nat
  ebx : Nat
  esp : Nat
  ebp : Nat
  esi : Nat
  edi : Nat
  eip : Nat
  eflags : Nat
  cs : Nat
  ds : Nat
  es : Nat
  fs : Nat
  gs : Nat
  ss : Nat
  pid : Nat
  priority : Int
  child_of : Nat
  request : Nat
  signal : Nat
  next_switch : Nat
  name : List Nat
  stack_start : Nat
  stack_size : Nat
  next : Addr
  deriving DecidableEq, Repr

/-- Ways in which an operation fails to return normally. -/
inductive Fault where
  | badAccess
  | divByZero
  | outOfFuel
  deriving DecidableEq, Repr

/-- The globals of `thread.c` together with the memory they point into. -/
structure Kernel where
  mem : Addr → Option ThreadContext
  listHead : Addr
  currentContext : Addr
  stackBytes : Addr → Nat
  freed : List Addr

/-- The record left by `memset(ctx, 0, sizeof(ThreadContext))`. -/
def zeroContext (cfg : Config) : ThreadContext :=
  { eax := 0, ecx := 0, edx := 0, ebx := 0, esp := 0, ebp := 0, esi := 0, edi := 0,
    eip := 0, eflags := 0, cs := 0, ds := 0, es := 0, fs := 0, gs := 0, ss := 0,
    pid := 0, priority := 0, child_of := 0, request := 0, signal := 0, next_switch := 0,
    name := List.replicate cfg.THREAD_NAME_LEN 0, stack_start := 0, stack_size := 0,
    next := 0 }

/-- Store of a whole record at an address. -/
def write (mem : Addr → Option ThreadContext) (a : Addr) (r : ThreadContext) :
    Addr → Option ThreadContext :=
  fun b => if b = a then some r else mem b

/-- A read through the pointer `a`: `NULL` and addresses holding no record give nothing. -/
def load (mem : Addr → Option ThreadContext) (a : Addr) : Option ThreadContext :=
  if a = 0 then none else mem a

/-- The state before `thread_init`: both globals are `NULL`, no record is stored. -/
def boot : Kernel :=
  { mem := fun _ => none, listHead := 0, currentContext := 0,
    stackBytes := fun _ => 0, freed := [] }

/-- `strncpy (dst, src, n)`: the bytes of `src` up to its first NUL, at most `n`,
padded with NUL bytes to length `n`. -/
def strncpy (n : Nat) (src : List Nat) : List Nat :=
  let body := (src.takeWhile (fun c => c ≠ 0)).take n
  body ++ List.replicate (n - body.length) 0

/-- `memset (start, 0, size)` on the byte memory of the stacks. -/
def memsetZero (m : Addr → Nat) (start size : Nat) : Addr → Nat :=
  fun a => if wrap32 (a + (4294967296 - wrap32 start)) < size then 0 else m a

/-- A little-endian store of a 32-bit word at byte address `a`. -/
def writeWord (m : Addr → Nat) (a v : Nat) : Addr → Nat :=
  fun b =>
    if b = wrap32 a then v % 256
    else if b = wrap32 (a + 1) then v / 256 % 256
    else if b = wrap32 (a + 2) then v / 65536 % 256
    else if b = wrap32 (a + 3) then v / 16777216 % 256
    else m b

/-- A little-endian load of a 32-bit word at byte address `a`. -/
def readWord (m : Addr → Nat) (a : Nat) : Nat :=
  m (wrap32 a) + 256 * m (wrap32 (a + 1)) + 65536 * m (wrap32 (a + 2))
    + 16777216 * m (wrap32 (a + 3))

/-- The loop `while (search->next != NULL) { threads++; search = search->next; }`. -/
def countLoop (mem : Addr → Option ThreadContext) : Nat → Addr → Nat → Except Fault Nat
  | 0, _, _ => .error .outOfFuel
  | fuel + 1, search, threads =>
    match load mem search with
    | none => .error .badAccess
    | some r =>
      if r.next ≠ 0 then countLoop mem fuel r.next (wrap32 (threads + 1))
      else .ok threads

/-- `thread_number_of_threads`. -/
def thread_number_of_threads (fuel : Nat) (s : Kernel) : Except Fault Nat :=
  countLoop s.mem fuel s.listHead 0

/-- `thread_init`. -/
def thread_init (cfg : Config) (baseContextAddress : Addr) (s : Kernel) :
    Except Fault Kernel :=
  if baseContextAddress = 0 then .error .badAccess
  else .ok { s with listHead := baseContextAddress, currentContext := baseContextAddress,
                    mem := write s.mem baseContextAddress (zeroContext cfg) }

/-- The loop `while (cur->next != NULL) cur = cur->next;` of `thread_create`. -/
def tailLoop (mem : Addr → Option ThreadContext) : Nat → Addr → Except Fault Addr
  | 0, _ => .error .outOfFuel
  | fuel + 1, cur =>
    match load mem cur with
    | none => .error .badAccess
    | some r => if r.next ≠ 0 then tailLoop mem fuel r.next else .ok cur

/-- The stack image built by `thread_create`: the region is zeroed, then `arg` is stored
at word index `stackSize/4 - 1` and `0` at word index `stackSize/4 - 2` (indices are
`uint32_t`). -/
def buildStack (m : Addr → Nat) (stackStart stackSize arg : Nat) : Addr → Nat :=
  let m1 := memsetZero m stackStart stackSize
  let m2 := writeWord m1 (stackStart + 4 * wrap32 (stackSize / 4 + 4294967296 - 1)) arg
  writeWord m2 (stackStart + 4 * wrap32 (stackSize / 4 + 4294967296 - 2)) 0

/-- `thread_create`.  `eflags` is the value returned by `thread_getEflags ()`. -/
def thread_create (cfg : Config) (fuel : Nat)
    (contextAddress stackStart stackSize entryPoint arg : Nat) (name : List Nat)
    (eflags : Nat) (s : Kernel) : Except Fault Kernel :=
  if contextAddress = 0 then .error .badAccess
  else
    let c1 : ThreadContext :=
      { zeroContext cfg with
        cs := cfg.GDT_KERNEL_CODE, ds := cfg.GDT_KERNEL_DATA, es := cfg.GDT_KERNEL_DATA,
        fs := cfg.GDT_KERNEL_DATA, gs := cfg.GDT_KERNEL_DATA, ss := cfg.GDT_KERNEL_DATA,
        eflags := eflags, eip := entryPoint, priority := cfg.THREAD_PRIORITY_NORMAL }
    let mem1 := write s.mem contextAddress c1
    match load mem1 s.currentContext with
    | none => .error .badAccess
    | some cur =>
      let c2 : ThreadContext := { c1 with child_of := cur.pid }
      let mem2 := write mem1 contextAddress c2
      match thread_number_of_threads fuel { s with mem := mem2 } with
      | .error e => .error e
      | .ok n =>
        let c3 : ThreadContext :=
          { c2 with
            pid := wrap32 (n + 1), request := cfg.THREAD_NO_REQUEST,
            signal := cfg.THREAD_BREAK_ALLOWED, next_switch := 0,
            name := strncpy cfg.THREAD_NAME_LEN name,
            esp := wrap32 (stackStart + stackSize + 4294967296 - 8),
            stack_size := stackSize, stack_start := stackStart }
        let mem3 := write mem2 contextAddress c3
        match tailLoop mem3 fuel s.listHead with
        | .error e => .error e
        | .ok last =>
          match load mem3 last with
          | none => .error .badAccess
          | some r =>
            .ok { s with mem := write mem3 last { r with next := contextAddress },
                         stackBytes := buildStack s.stackBytes stackStart stackSize arg }

/-- The loop `while (search->next != target) search = search->next;` shared by
`thread_exit` and `thread_kill`. -/
def findPrev (mem : Addr → Option ThreadContext) : Nat → Addr → Addr → Except Fault Addr
  | 0, _, _ => .error .outOfFuel
  | fuel + 1, search, target =>
    match load mem search with
    | none => .error .badAccess
    | some r => if r.next ≠ target then findPrev mem fuel r.next target else .ok search

/-- The tail of `thread_exit` and of the found branch of `thread_kill`:
`search->next = victim->next; kfree (victim->esp); kfree (victim);`. -/
def unlink (s : Kernel) (search victim : Addr) : Except Fault Kernel :=
  match load s.mem victim, load s.mem search with
  | some v, some p =>
    let mem1 := write s.mem search { p with next := v.next }
    match load mem1 victim with
    | none => .error .badAccess
    | some v1 => .ok { s with mem := mem1, freed := s.freed ++ [v1.esp, victim] }
  | _, _ => .error .badAccess

/-- `thread_exit`; the argument `ret_code` is not used by the C function. -/
def thread_exit (fuel : Nat) (_ret_code : Nat) (s : Kernel) : Except Fault Kernel :=
  match findPrev s.mem fuel s.listHead s.currentContext with
  | .error e => .error e
  | .ok search => unlink s search s.currentContext

/-- `thread_get_own_pid`. -/
def thread_get_own_pid (s : Kernel) : Except Fault Nat :=
  match load s.mem s.currentContext with
  | none => .error .badAccess
  | some r => .ok r.pid

/-- The first loop of `thread_kill`: `some a` when the record at `a` was found
(`found_pid = 1`, `kill = a`), `none` when the loop was left by `break`. -/
def killSearch (mem : Addr → Option ThreadContext) :
    Nat → Addr → Nat → Except Fault (Option Addr)
  | 0, _, _ => .error .outOfFuel
  | fuel + 1, search, pid =>
    match load mem search with
    | none => .error .badAccess
    | some r =>
      if r.pid = pid then .ok (some search)
      else
        match load mem r.next with
        | none => .error .badAccess
        | some r1 => if r1.next = 0 then .ok none else killSearch mem fuel r.next pid

/-- `thread_kill`: the returned number is the status (`0` removed, `1` not found). -/
def thread_kill (fuel : Nat) (pid : Nat) (s : Kernel) : Except Fault (Nat × Kernel) :=
  match killSearch s.mem fuel s.listHead pid with
  | .error e => .error e
  | .ok none => .ok (1, s)
  | .ok (some kill) =>
    match findPrev s.mem fuel s.listHead kill with
    | .error e => .error e
    | .ok search =>
      match unlink s search kill with
      | .error e => .error e
      | .ok s1 => .ok (0, s1)

/-- `thread_set_priority`. -/
def thread_set_priority (priority : Int) (s : Kernel) : Except Fault Kernel :=
  match load s.mem s.currentContext with
  | none => .error .badAccess
  | some r => .ok { s with mem := write s.mem s.currentContext { r with priority := priority } }

/-- `thread_fair_schedule`. -/
def thread_fair_schedule (fuel : Nat) (s : Kernel) : Except Fault Nat :=
  match countLoop s.mem fuel s.listHead 0 with
  | .error e => .error e
  | .ok threads =>
    if threads > 0 then
      let fair_schedule := 100 / threads
      if fair_schedule = 0 then .error .divByZero else .ok (100 / fair_schedule)
    else .ok 0

/-- `thread_saveContext`, as a function of the record it is applied to. -/
def saveInto (cfg : Config) (oldState : registers_t) (c : ThreadContext) : ThreadContext :=
  let c1 : ThreadContext :=
    if oldState.cs % 4 = 3 then { c with ss := oldState.ss, esp := oldState.useresp }
    else { c with ss := cfg.GDT_KERNEL_DATA, esp := wrap32 (oldState.esp + 20) }
  { c1 with
    eip := oldState.eip, cs := oldState.cs, eflags := oldState.eflags,
    eax := oldState.eax, ecx := oldState.ecx, edx := oldState.edx, ebx := oldState.ebx,
    ebp := oldState.ebp, esi := oldState.esi, edi := oldState.edi,
    ds := oldState.ds, es := oldState.es, fs := oldState.fs, gs := oldState.gs }

/-- `thread_saveContext`. -/
def thread_saveContext (cfg : Config) (oldState : registers_t) (s : Kernel) :
    Except Fault Kernel :=
  match load s.mem s.currentContext with
  | none => .error .badAccess
  | some c => .ok { s with mem := write s.mem s.currentContext (saveInto cfg oldState c) }

/-- The three assignments to `next_switch` in the arming step of `thread_schedule`. -/
inductive ArmBranch where
  | weighted
  | urgent
  | fallback
  deriving DecidableEq, Repr

/-- The arming step of `thread_schedule` for an unarmed record: which assignment runs and
the value it stores.  `now` is the value of `clock ()`. -/
def armDeadline (fair_schedule now : Nat) (priority : Int) : ArmBranch × Nat :=
  if priority ≥ 0 then
    (.weighted, wrap32 (now + wrap32 (fair_schedule * priority.toNat)))
  else if priority < 0 then
    (.urgent, wrap32 (now + 1))
  else
    (.fallback, wrap32 (now + fair_schedule))

/-- `thread_schedule`.  `now` is the value `clock ()` returns during this tick.  The second
component of the result is the context handed to `thread_switchToContext`, if any. -/
def thread_schedule (cfg : Config) (fuel : Nat) (oldState : registers_t) (now : Nat)
    (s : Kernel) : Except Fault (Kernel × Option Addr) :=
  match thread_fair_schedule fuel s with
  | .error e => .error e
  | .ok fair_schedule =>
    if fair_schedule > 0 then
      match load s.mem s.currentContext with
      | none => .error .badAccess
      | some c =>
        if c.next_switch = 0 then
          .ok ({ s with mem := write s.mem s.currentContext
                            { c with next_switch := (armDeadline fair_schedule now c.priority).2 } },
               none)
        else if c.next_switch ≤ now then
          let s1 : Kernel :=
            { s with mem := write s.mem s.currentContext { c with next_switch := 0 } }
          match thread_saveContext cfg oldState s1 with
          | .error e => .error e
          | .ok s2 =>
            match load s2.mem s2.currentContext with
            | none => .error .badAccess
            | some c2 =>
              let next := if c2.next = 0 then s2.listHead else c2.next
              .ok ({ s2 with currentContext := next }, some next)
        else .ok (s, none)
    else .ok (s, none)

/-- The addresses met when following `next` from `a` up to `NULL`, when the walk ends
within `fuel` steps on stored records. -/
def chainFrom (mem : Addr → Option ThreadContext) : Nat → Addr → Option (List Addr)
  | 0, _ => none
  | fuel + 1, a =>
    if a = 0 then some []
    else
      match load mem a with
      | none => none
      | some r => (chainFrom mem fuel r.next).map (fun l => a :: l)

/-- The records of the chain that starts at the head, in chain order. -/
def chainOf (fuel : Nat) (s : Kernel) : Option (List Addr) :=
  chainFrom s.mem fuel s.listHead

/-- The list `l` holds the addresses met when following `next` from `a` until `b` is
reached: each address holds a record and each record links to the next address. -/
def IsSeg (mem : Addr → Option ThreadContext) : Addr → List Addr → Addr → Prop
  | a, [], b => a = b
  | a, x :: xs, b => a = x ∧ ∃ r, load mem x = some r ∧ IsSeg mem r.next xs b

/-- The list `l` is the chain of records from `a`: following `next` from `a` visits the
addresses of `l` in order and then reaches `NULL`. -/
def IsChain (mem : Addr → Option ThreadContext) (a : Addr) (l : List Addr) : Prop :=
  IsSeg mem a l 0

/-- The pid stored at an address (`0` when no record can be read there). -/
def pidAt (mem : Addr → Option ThreadContext) (a : Addr) : Nat :=
  match load mem a with
  | some r => r.pid
  | none => 0

/-- A record with its link erased: what a record is apart from its place in the chain. -/
def eraseNext (r : ThreadContext) : ThreadContext := { r with next := 0 }

/-! ## Sequences of calls and example registries -/

/-- The arguments of one `thread_create` call (`eflags` is what `thread_getEflags ()` returns
during the call). -/
structure CreateArgs where
  contextAddress : Nat
  stackStart : Nat
  stackSize : Nat
  entryPoint : Nat
  arg : Nat
  name : List Nat
  eflags : Nat

/-- One `thread_create` call. -/
def create (cfg : Config) (fuel : Nat) (c : CreateArgs) (s : Kernel) : Except Fault Kernel :=
  thread_create cfg fuel c.contextAddress c.stackStart c.stackSize c.entryPoint c.arg c.name
    c.eflags s

/-- A sequence of `thread_create` calls, stopping at the first one that does not return. -/
def createAll (cfg : Config) (fuel : Nat) : List CreateArgs → Kernel → Except Fault Kernel
  | [], s => .ok s
  | c :: cs, s =>
    match create cfg fuel c s with
    | .error e => .error e
    | .ok s1 => createAll cfg fuel cs s1

/-- `thread_init` followed by a sequence of `thread_create` calls. -/
def initThenCreate (cfg : Config) (fuel : Nat) (base : Addr) (cs : List CreateArgs)
    (s0 : Kernel) : Except Fault Kernel :=
  match thread_init cfg base s0 with
  | .error e => .error e
  | .ok s => createAll cfg fuel cs s

/-- Registries built by `thread_init` followed by `thread_create` calls, each on context
memory that is not a record of the chain, and by `thread_kill` calls that return `0`.
The two numbers count the creates and the successful removals. -/
inductive Built (cfg : Config) : Kernel → Nat → Nat → Prop
  | init (s0 s : Kernel) (base : Addr) :
      base < 4294967296 → thread_init cfg base s0 = .ok s → Built cfg s 0 0
  | create (s s1 : Kernel) (creates kills fuel : Nat) (c : CreateArgs) :
      Built cfg s creates kills → c.contextAddress < 4294967296 →
      (∀ l, IsChain s.mem s.listHead l → c.contextAddress ∉ l) →
      create cfg fuel c s = .ok s1 → Built cfg s1 (creates + 1) kills
  | kill (s s1 : Kernel) (creates kills fuel pid : Nat) :
      Built cfg s creates kills → thread_kill fuel pid s = .ok (0, s1) →
      Built cfg s1 creates (kills + 1)

/-- A sequence of timer ticks, each given by the interrupted snapshot and the value of
`clock ()`.  Besides the final state the result lists, per tick, the context handed to
`thread_switchToContext` (if any) and the current context after the tick. -/
def scheduleAll (cfg : Config) (fuel : Nat) :
    List (registers_t × Nat) → Kernel → Except Fault (Kernel × List (Option Addr × Addr))
  | [], s => .ok (s, [])
  | t :: ts, s =>
    match thread_schedule cfg fuel t.1 t.2 s with
    | .error e => .error e
    | .ok (s1, sw) =>
      match scheduleAll cfg fuel ts s1 with
      | .error e => .error e
      | .ok (s2, log) => .ok (s2, (sw, s1.currentContext) :: log)

/-- States reachable from `thread_init` by creates on context memory that is not a record of
the chain, by `thread_set_priority`, by scheduler ticks and by `thread_kill` calls that
either return 1 or are for a pid other than that of the current record; `thread_exit` is
not among the steps. -/
inductive ReachKeepingCurrent (cfg : Config) : Kernel → Prop
  | init (s0 s : Kernel) (base : Addr) :
      thread_init cfg base s0 = .ok s → ReachKeepingCurrent cfg s
  | create (s s1 : Kernel) (fuel : Nat) (c : CreateArgs) :
      ReachKeepingCurrent cfg s →
      (∀ l, IsChain s.mem s.listHead l → c.contextAddress ∉ l) →
      create cfg fuel c s = .ok s1 → ReachKeepingCurrent cfg s1
  | kill (s s1 : Kernel) (fuel pid status : Nat) :
      ReachKeepingCurrent cfg s → (status = 0 → pidAt s.mem s.currentContext ≠ pid) →
      thread_kill fuel pid s = .ok (status, s1) → ReachKeepingCurrent cfg s1
  | setPriority (s s1 : Kernel) (priority : Int) :
      ReachKeepingCurrent cfg s → thread_set_priority priority s = .ok s1 →
      ReachKeepingCurrent cfg s1
  | schedule (s s1 : Kernel) (fuel : Nat) (regs : registers_t) (now : Nat)
      (sw : Option Addr) :
      ReachKeepingCurrent cfg s → thread_schedule cfg fuel regs now s = .ok (s1, sw) →
      ReachKeepingCurrent cfg s1

/-- States reachable from `thread_init (base)` by steps that complete: creates on context
memory that is not a record of the chain, `thread_exit`, `thread_kill` with any pid and any
status, `thread_set_priority` and scheduler ticks. -/
inductive Reachable (cfg : Config) (base : Addr) : Kernel → Prop
  | init (s0 s : Kernel) : thread_init cfg base s0 = .ok s → Reachable cfg base s
  | create (s s1 : Kernel) (fuel : Nat) (c : CreateArgs) :
      Reachable cfg base s →
      (∀ l, IsChain s.mem s.listHead l → c.contextAddress ∉ l) →
      create cfg fuel c s = .ok s1 → Reachable cfg base s1
  | exit (s s1 : Kernel) (fuel ret_code : Nat) :
      Reachable cfg base s → thread_exit fuel ret_code s = .ok s1 → Reachable cfg base s1
  | kill (s s1 : Kernel) (fuel pid status : Nat) :
      Reachable cfg base s → thread_kill fuel pid s = .ok (status, s1) →
      Reachable cfg base s1
  | setPriority (s s1 : Kernel) (priority : Int) :
      Reachable cfg base s → thread_set_priority priority s = .ok s1 →
      Reachable cfg base s1
  | schedule (s s1 : Kernel) (fuel : Nat) (regs : registers_t) (now : Nat)
      (sw : Option Addr) :
      Reachable cfg base s → thread_schedule cfg fuel regs now s = .ok (s1, sw) →
      Reachable cfg base s1

/-- One line printed by `thread_show_info`: the name, pid, priority and `child_of` of a
record. -/
structure InfoLine where
  name : List Nat
  pid : Nat
  priority : Int
  child_of : Nat
  deriving DecidableEq, Repr

/-- The line `thread_show_info` prints for a record. -/
def infoLine (r : ThreadContext) : InfoLine :=
  { name := r.name, pid := r.pid, priority := r.priority, child_of := r.child_of }

/-- The `do ... while (1)` loop of `thread_show_info`, with its local variables `search`,
`run`, `threads` and `mthreads` and the lines printed so far.  It ends with the lines printed
and the value of `threads`. -/
def showLoop (mem : Addr → Option ThreadContext) :
    Nat → Addr → Nat → Nat → Nat → List InfoLine → Except Fault (List InfoLine × Nat)
  | 0, _, _, _, _, _ => .error .outOfFuel
  | fuel + 1, search, run, threads, mthreads, out =>
    match load mem search with
    | none => .error .badAccess
    | some r =>
      let out1 := out ++ [infoLine r]
      let threads1 := wrap32 (threads + 1)
      if run = 0 ∧ threads1 = mthreads then .ok (out1, threads1)
      else
        match load mem r.next with
        | none => .error .badAccess
        | some r1 =>
          if r1.next = 0 then
            showLoop mem fuel r.next 0 threads1 (wrap32 (threads1 + 1)) out1
          else showLoop mem fuel r.next run threads1 mthreads out1

/-- `thread_show_info`: the lines printed, one per loop iteration, and the total printed
after the loop. -/
def thread_show_info (fuel : Nat) (s : Kernel) : Except Fault (List InfoLine × Nat) :=
  showLoop s.mem fuel s.listHead 1 0 0 []

/-- Example values for the constants of the headers. -/
def demoCfg : Config :=
  { GDT_KERNEL_CODE := 8, GDT_KERNEL_DATA := 16, THREAD_PRIORITY_NORMAL := 0,
    THREAD_NO_REQUEST := 0, THREAD_BREAK_ALLOWED := 0, THREAD_NAME_LEN := 8 }

/-- Example arguments: thread `A` with its record at address 200. -/
def demoArgsA : CreateArgs :=
  { contextAddress := 200, stackStart := 4096, stackSize := 8192, entryPoint := 1000,
    arg := 0, name := [65], eflags := 514 }

/-- Example arguments: thread `B` with its record at address 300. -/
def demoArgsB : CreateArgs :=
  { contextAddress := 300, stackStart := 16384, stackSize := 8192, entryPoint := 2000,
    arg := 0, name := [66], eflags := 514 }

/-- The registry after `thread_init (100)`. -/
def demoInit : Kernel := ((thread_init demoCfg 100 boot).toOption).getD boot

/-- The registry after `thread_init (100)` and the creation of `A`. -/
def demoA : Kernel := ((create demoCfg 8 demoArgsA demoInit).toOption).getD boot

/-- The registry after `thread_init (100)` and the creation of `A` and `B`. -/
def demoAB : Kernel := ((create demoCfg 8 demoArgsB demoA).toOption).getD boot

/-- The registry `demoAB` after `thread_kill (1)`. -/
def demoABkill1 : Kernel := (((thread_kill 8 1 demoAB).toOption).getD (1, boot)).2

/-- An example register snapshot taken in kernel mode. -/
def demoRegs : registers_t :=
  { ds := 16, es := 16, fs := 16, gs := 16, edi := 0, esi := 0, ebp := 0, esp := 32768,
    ebx := 0, edx := 0, ecx := 0, eax := 0, eip := 1234, cs := 8, eflags := 514,
    useresp := 0, ss := 0 }

/-- The registry `demoAB` with every record armed with the deadline 1. -/
def demoArmed : Kernel :=
  { demoAB with mem := fun a => (demoAB.mem a).map (fun r => { r with next_switch := 1 }) }

/-- The registry `demoA` after `thread_set_priority (-1)` by the current (base) record. -/
def demoAUrgent : Kernel := ((thread_set_priority (-1) demoA).toOption).getD boot

/-- Arguments for 101 creates, with the records at the addresses 1000 to 1100. -/
def crowdArgs : List CreateArgs :=
  (List.range 101).map (fun i =>
    { contextAddress := 1000 + i, stackStart := 1048576 + 8192 * i, stackSize := 8192,
      entryPoint := 2000, arg := 0, name := [67], eflags := 514 })

/-- The registry after `thread_init (100)` and 101 creates. -/
def crowded : Kernel := ((initThenCreate demoCfg 102 100 crowdArgs boot).toOption).getD boot

/-- The registry `crowded` after `thread_set_priority (-1)` by the current (base) record. -/
def crowdedUrgent : Kernel := ((thread_set_priority (-1) crowded).toOption).getD boot

/-- The registry `demoAB` after a tick at time 1, which arms the base record. -/
def demoTick1 : Kernel :=
  (((thread_schedule demoCfg 8 demoRegs 1 demoAB).toOption).getD (boot, none)).1

/-- The registry `demoTick1` after a tick at time 2, which switches to `A`. -/
def demoTick2 : Kernel :=
  (((thread_schedule demoCfg 8 demoRegs 2 demoTick1).toOption).getD (boot, none)).1

/-- The registry `demoTick2` after `thread_exit`, called by the current thread `A`. -/
def demoExit : Kernel := ((thread_exit 8 0 demoTick2).toOption).getD boot

/-- Example arguments with a stack size that is not a multiple of the word size. -/
def demoArgsOdd : CreateArgs :=
  { contextAddress := 200, stackStart := 4096, stackSize := 10, entryPoint := 1000,
    arg := 16909060, name := [65], eflags := 514 }

/-- The registry after `thread_init (100)` and a create with `demoArgsOdd`. -/
def demoOdd : Kernel := ((create demoCfg 8 demoArgsOdd demoInit).toOption).getD boot

/-- Example arguments with a stack region that runs past the end of the 32-bit address
space. -/
def demoArgsWrap : CreateArgs :=
  { contextAddress := 200, stackStart := 4294967292, stackSize := 16, entryPoint := 1000,
    arg := 7, name := [65], eflags := 514 }

/-- The registry after `thread_init (100)` and a create with `demoArgsWrap`. -/
def demoWrap : Kernel := ((create demoCfg 8 demoArgsWrap demoInit).toOption).getD boot
/-- Example arguments: thread `C` with its record at address 400 and a non-zero argument. -/
def demoArgsC : CreateArgs :=
  { contextAddress := 400, stackStart := 32768, stackSize := 8192, entryPoint := 3000,
    arg := 16909060, name := [67], eflags := 514 }

/-- The registry `demoABkill1` (base and `B`) after the creation of `C`. -/
def demoKillThenC : Kernel := ((create demoCfg 8 demoArgsC demoABkill1).toOption).getD boot

/-- The registry `demoAB` after `thread_set_priority (3)` by the current (base) record. -/
def demoAB3 : Kernel := ((thread_set_priority 3 demoAB).toOption).getD boot

/-- The registry `demoAB` after `thread_set_priority (-1)` by the current (base) record. -/
def demoABUrgent : Kernel := ((thread_set_priority (-1) demoAB).toOption).getD boot

/-- The registry after `thread_init (100)` and the first 100 creates of `crowdArgs`. -/
def crowd100 : Kernel :=
  ((initThenCreate demoCfg 102 100 (crowdArgs.take 100) boot).toOption).getD boot

/-- The registry `crowd100` after `thread_set_priority (1)` and a tick at time 5, which arms
the current (base) record with the deadline 105. -/
def crowd100Armed : Kernel :=
  (((thread_schedule demoCfg 102 demoRegs 5
      (((thread_set_priority 1 crowd100).toOption).getD boot)).toOption).getD (boot, none)).1

/-- Arguments of the 101st create. -/
def crowdLast : CreateArgs :=
  { contextAddress := 1100, stackStart := 1867776, stackSize := 8192, entryPoint := 2000,
    arg := 0, name := [67], eflags := 514 }

/-- The registry `crowd100Armed` after one more create: 101 created threads, the current
record armed with the deadline 105. -/
def crowd101Armed : Kernel := ((create demoCfg 102 crowdLast crowd100Armed).toOption).getD boot

/-- The base record of `demoAB3`. -/
def demoBase3 : ThreadContext := { zeroContext demoCfg with priority := 3, next := 200 }

/-- The base record of `demoABUrgent`. -/
def demoBaseUrgent : ThreadContext := { zeroContext demoCfg with priority := -1, next := 200 }

/-! ## Memory and chains -/

theorem load_zero (mem : Addr → Option ThreadContext) : load mem 0 = none := by
  simp [load]

theorem load_write_same (mem : Addr → Option ThreadContext) (a : Addr) (r : ThreadContext)
    (h : a ≠ 0) : load (write mem a r) a = some r := by
  simp [load, write, h]

theorem load_write_other (mem : Addr → Option ThreadContext) (a b : Addr) (r : ThreadContext)
    (h : b ≠ a) : load (write mem a r) b = load mem b := by
  simp [load, write, h]

theorem ne_zero_of_load {mem : Addr → Option ThreadContext} {a : Addr} {r : ThreadContext}
    (h : load mem a = some r) : a ≠ 0 := by
  intro h0
  subst h0
  simp [load] at h

theorem isSeg_append {mem : Addr → Option ThreadContext} {l1 l2 : List Addr} {a b : Addr} :
    IsSeg mem a (l1 ++ l2) b ↔ ∃ m, IsSeg mem a l1 m ∧ IsSeg mem m l2 b := by
  induction l1 generalizing a with
  | nil => simp [IsSeg]
  | cons x xs ih =>
    constructor
    · intro h
      have h1 : IsSeg mem a (x :: (xs ++ l2)) b := h
      obtain ⟨hx, r, hr, hrest⟩ := h1
      obtain ⟨m, h2, h3⟩ := ih.mp hrest
      exact ⟨m, ⟨hx, r, hr, h2⟩, h3⟩
    · rintro ⟨m, ⟨hx, r, hr, h1⟩, h2⟩
      have h3 : IsSeg mem a (x :: (xs ++ l2)) b := ⟨hx, r, hr, ih.mpr ⟨m, h1, h2⟩⟩
      exact h3

/-- A segment only depends on the links of the records it visits. -/
theorem isSeg_congr {mem mem1 : Addr → Option ThreadContext} {l : List Addr} {a b : Addr}
    (hl : ∀ x ∈ l, (load mem1 x).map (fun r => r.next) = (load mem x).map (fun r => r.next))
    (h : IsSeg mem a l b) : IsSeg mem1 a l b := by
  induction l generalizing a with
  | nil => exact h
  | cons x xs ih =>
    obtain ⟨hx, r, hr, hrest⟩ := h
    have hx1 := hl x (List.mem_cons_self x xs)
    rw [hr] at hx1
    cases h1 : load mem1 x with
    | none => simp [h1] at hx1
    | some r1 =>
      simp [h1] at hx1
      refine ⟨hx, r1, h1, ?_⟩
      rw [hx1]
      exact ih (fun y hy => hl y (List.mem_cons_of_mem x hy)) hrest

theorem isChain_unique {mem : Addr → Option ThreadContext} {l1 l2 : List Addr} {a : Addr}
    (h1 : IsChain mem a l1) (h2 : IsChain mem a l2) : l1 = l2 := by
  induction l1 generalizing a l2 with
  | nil =>
    cases l2 with
    | nil => rfl
    | cons y ys =>
      obtain ⟨hy, r, hr, _⟩ := h2
      have h0 : a = 0 := h1
      subst hy
      exact absurd h0 (ne_zero_of_load hr)
  | cons x xs ih =>
    obtain ⟨hx, r, hr, hrest⟩ := h1
    cases l2 with
    | nil =>
      have h0 : a = 0 := h2
      subst hx
      exact absurd h0 (ne_zero_of_load hr)
    | cons y ys =>
      obtain ⟨hy, r2, hr2, hrest2⟩ := h2
      subst hx
      subst hy
      rw [hr] at hr2
      cases hr2
      rw [ih hrest hrest2]

theorem isChain_suffix {mem : Addr → Option ThreadContext} {l1 l2 : List Addr} {a x : Addr}
    (h : IsChain mem a (l1 ++ x :: l2)) : IsChain mem x (x :: l2) := by
  obtain ⟨m, _, h2⟩ := isSeg_append.mp h
  obtain ⟨hm, r, hr, hrest⟩ := h2
  exact ⟨rfl, r, hr, hrest⟩

theorem isChain_nodup {mem : Addr → Option ThreadContext} {l : List Addr} {a : Addr}
    (h : IsChain mem a l) : l.Nodup := by
  induction l generalizing a with
  | nil => exact List.nodup_nil
  | cons x xs ih =>
    obtain ⟨hx, r, hr, hrest⟩ := h
    refine List.nodup_cons.mpr ⟨?_, ih hrest⟩
    intro hmem
    obtain ⟨p, q, hpq⟩ := List.append_of_mem hmem
    have hsuf : IsChain mem x (x :: q) := by
      have : IsChain mem r.next (p ++ x :: q) := hpq ▸ hrest
      exact isChain_suffix this
    have hfull : IsChain mem x (x :: xs) := ⟨rfl, r, hr, hrest⟩
    have heq := isChain_unique hfull hsuf
    have hlen : (x :: xs).length = (x :: q).length := congrArg List.length heq
    rw [hpq] at hlen
    simp at hlen
    omega

theorem isChain_ne_zero {mem : Addr → Option ThreadContext} {l : List Addr} {a : Addr}
    (h : IsChain mem a l) : ∀ x ∈ l, x ≠ 0 := by
  induction l generalizing a with
  | nil => intro x hx; cases hx
  | cons y ys ih =>
    obtain ⟨_, r, hr, hrest⟩ := h
    intro x hx
    rcases List.mem_cons.mp hx with rfl | hx
    · exact ne_zero_of_load hr
    · exact ih hrest x hx

theorem isChain_load {mem : Addr → Option ThreadContext} {l : List Addr} {a : Addr}
    (h : IsChain mem a l) : ∀ x ∈ l, ∃ r, load mem x = some r := by
  induction l generalizing a with
  | nil => intro x hx; cases hx
  | cons y ys ih =>
    obtain ⟨_, r, hr, hrest⟩ := h
    intro x hx
    rcases List.mem_cons.mp hx with rfl | hx
    · exact ⟨r, hr⟩
    · exact ih hrest x hx

theorem isChain_of_chainFrom {mem : Addr → Option ThreadContext} {fuel : Nat} {a : Addr}
    {l : List Addr} (h : chainFrom mem fuel a = some l) : IsChain mem a l := by
  induction fuel generalizing a l with
  | zero => simp [chainFrom] at h
  | succ n ih =>
    unfold chainFrom at h
    split at h
    · rename_i h0
      cases h
      exact h0
    · cases hr : load mem a with
      | none => simp [hr] at h
      | some r =>
        simp only [hr, Option.map_eq_some'] at h
        obtain ⟨t, ht, rfl⟩ := h
        exact ⟨rfl, r, hr, ih ht⟩

theorem isChain_write_fresh {mem : Addr → Option ThreadContext} {l : List Addr} {a c : Addr}
    (r : ThreadContext) (h : IsChain mem a l) (hc : c ∉ l) : IsChain (write mem c r) a l := by
  refine isSeg_congr (fun x hx => ?_) h
  have hne : x ≠ c := fun e => hc (e ▸ hx)
  rw [load_write_other mem c x r hne]

/-- Linking a fresh record behind the last record of a chain extends the chain by it. -/
theorem isChain_snoc {mem mem1 : Addr → Option ThreadContext} {ini : List Addr}
    {a last c : Addr} (r rc : ThreadContext)
    (h : IsChain mem a (ini ++ [last]))
    (hini : ∀ x ∈ ini, load mem1 x = load mem x)
    (hlast : load mem1 last = some { r with next := c })
    (hc : load mem1 c = some rc) (hnext : rc.next = 0) :
    IsChain mem1 a (ini ++ [last] ++ [c]) := by
  obtain ⟨m, h1, h2⟩ := isSeg_append.mp h
  obtain ⟨hm, _, _, _⟩ := h2
  have h3 : IsSeg mem1 a ini m := isSeg_congr (fun x hx => by rw [hini x hx]) h1
  have h4 : IsSeg mem1 m ([last] ++ [c]) 0 := by
    refine ⟨hm, _, hlast, ?_⟩
    exact ⟨rfl, rc, hc, hnext⟩
  have h5 : IsSeg mem1 a (ini ++ ([last] ++ [c])) 0 := isSeg_append.mpr ⟨m, h3, h4⟩
  rw [List.append_assoc]
  exact h5

theorem isChain_last_next {mem : Addr → Option ThreadContext} {ini : List Addr}
    {a last : Addr} {r : ThreadContext}
    (h : IsChain mem a (ini ++ [last])) (hr : load mem last = some r) : r.next = 0 := by
  obtain ⟨m, _, h2⟩ := isSeg_append.mp h
  obtain ⟨hm, r1, hr1, hend⟩ := h2
  rw [hr] at hr1
  cases hr1
  exact hend

/-! ## The counting and tail loops on a chain -/

theorem wrap32_of_lt {n : Nat} (h : n < 4294967296) : wrap32 n = n := by
  unfold wrap32
  omega

theorem countLoop_chain {mem : Addr → Option ThreadContext} {xs : List Addr} :
    ∀ {x a : Addr} (fuel n : Nat), IsChain mem a (x :: xs) → n < 4294967296 →
      countLoop mem fuel a n
        = if xs.length < fuel then .ok (wrap32 (n + xs.length)) else .error .outOfFuel := by
  induction xs with
  | nil =>
    intro x a fuel n h hn
    obtain ⟨hx, r, hr, hend⟩ := h
    have hend0 : r.next = 0 := hend
    subst hx
    cases fuel with
    | zero => simp [countLoop]
    | succ f => simp [countLoop, hr, hend0, wrap32_of_lt hn]
  | cons y ys ih =>
    intro x a fuel n h hn
    obtain ⟨hx, r, hr, hrest⟩ := h
    subst hx
    have hy : r.next = y := hrest.1
    have hy0 : y ≠ 0 := by
      obtain ⟨_, r1, hr1, _⟩ := hrest
      exact ne_zero_of_load hr1
    cases fuel with
    | zero => simp [countLoop]
    | succ f =>
      have hw : wrap32 (n + 1) < 4294967296 := by unfold wrap32; omega
      have hrec := ih f (wrap32 (n + 1)) (hy ▸ hrest) hw
      simp only [countLoop, hr, hy, ne_eq, hy0, not_false_eq_true, if_true, hrec,
        List.length_cons, Nat.add_lt_add_iff_right]
      have he : wrap32 (wrap32 (n + 1) + ys.length) = wrap32 (n + (ys.length + 1)) := by
        unfold wrap32
        omega
      rw [he]

theorem tailLoop_chain {mem : Addr → Option ThreadContext} {ini : List Addr} :
    ∀ {a last : Addr} (fuel : Nat), IsChain mem a (ini ++ [last]) →
      tailLoop mem fuel a = if ini.length < fuel then .ok last else .error .outOfFuel := by
  induction ini with
  | nil =>
    intro a last fuel h
    obtain ⟨hx, r, hr, hend⟩ := h
    have hend0 : r.next = 0 := hend
    subst hx
    cases fuel with
    | zero => simp [tailLoop]
    | succ f => simp [tailLoop, hr, hend0]
  | cons y ys ih =>
    intro a last fuel h
    have h1 : IsSeg mem a (y :: (ys ++ [last])) 0 := h
    obtain ⟨hx, r, hr, hrest⟩ := h1
    subst hx
    have hne : r.next ≠ 0 := by
      cases ys with
      | nil =>
        obtain ⟨e, r1, hr1, _⟩ := hrest
        rw [e]
        exact ne_zero_of_load hr1
      | cons z zs =>
        obtain ⟨e, r1, hr1, _⟩ := hrest
        rw [e]
        exact ne_zero_of_load hr1
    cases fuel with
    | zero => simp [tailLoop]
    | succ f =>
      have hrec := ih f hrest
      simp only [tailLoop, hr, ne_eq, hne, not_false_eq_true, if_true, hrec,
        List.length_cons, Nat.add_lt_add_iff_right]

/-- On a chain of `L ≥ 1` records the count is `L - 1` (modulo `2^32`), given enough fuel. -/
theorem thread_number_of_threads_chain {s : Kernel} {l : List Addr} (fuel : Nat)
    (h : IsChain s.mem s.listHead l) (hl : l ≠ []) :
    thread_number_of_threads fuel s
      = if l.length - 1 < fuel then .ok (wrap32 (l.length - 1)) else .error .outOfFuel := by
  cases l with
  | nil => exact absurd rfl hl
  | cons x xs =>
    have := countLoop_chain fuel 0 h (by norm_num)
    simpa [thread_number_of_threads] using this

/-! ## `thread_create` on a chain -/

/-- With enough fuel, `thread_create` on context memory outside the chain returns, appends
the new record behind the last one and changes no other record apart from that link.  The
current record has to be readable; it need not be a record of the chain. -/
theorem thread_create_chain (cfg : Config) {s : Kernel} {ini : List Addr} {last : Addr}
    (fuel ctx stackStart stackSize entryPoint arg : Nat) (name : List Nat) (eflags : Nat)
    (h : IsChain s.mem s.listHead (ini ++ [last]))
    (hcur : s.currentContext = ctx ∨ ∃ r, load s.mem s.currentContext = some r)
    (hc0 : ctx ≠ 0) (hfresh : ctx ∉ ini ++ [last]) (hfuel : ini.length < fuel) :
    ∃ s1, thread_create cfg fuel ctx stackStart stackSize entryPoint arg name eflags s = .ok s1
      ∧ s1.listHead = s.listHead ∧ s1.currentContext = s.currentContext
      ∧ s1.freed = s.freed
      ∧ IsChain s1.mem s1.listHead (ini ++ [last] ++ [ctx])
      ∧ (∀ a, a ≠ ctx → (load s1.mem a).map eraseNext = (load s.mem a).map eraseNext)
      ∧ ∃ rc, load s1.mem ctx = some rc ∧ rc.pid = wrap32 (wrap32 ini.length + 1)
          ∧ rc.next = 0 ∧ rc.next_switch = 0
          ∧ rc.priority = cfg.THREAD_PRIORITY_NORMAL := by
  have hld : ∀ r1 : ThreadContext,
      ∃ cur, load (write s.mem ctx r1) s.currentContext = some cur := by
    intro r1
    by_cases he : s.currentContext = ctx
    · rw [he]
      exact ⟨r1, load_write_same _ _ _ hc0⟩
    · rcases hcur with h1 | ⟨r, hr⟩
      · exact absurd h1 he
      · exact ⟨r, by rw [load_write_other _ _ _ _ he, hr]⟩
  have hlastmem : last ∈ ini ++ [last] := by simp
  obtain ⟨r, hrl⟩ := isChain_load h _ hlastmem
  have hlastne : last ≠ ctx := fun e => hfresh (e ▸ hlastmem)
  have hr0 : r.next = 0 := isChain_last_next h hrl
  have hcount : ∀ r1 r2 : ThreadContext,
      thread_number_of_threads fuel { s with mem := write (write s.mem ctx r1) ctx r2 }
        = .ok (wrap32 ini.length) := by
    intro r1 r2
    have hch : IsChain (write (write s.mem ctx r1) ctx r2) s.listHead (ini ++ [last]) :=
      isChain_write_fresh r2 (isChain_write_fresh r1 h hfresh) hfresh
    have := thread_number_of_threads_chain
      (s := { s with mem := write (write s.mem ctx r1) ctx r2 }) fuel hch (by simp)
    simpa [hfuel] using this
  have htail : ∀ r1 r2 r3 : ThreadContext,
      tailLoop (write (write (write s.mem ctx r1) ctx r2) ctx r3) fuel s.listHead
        = .ok last := by
    intro r1 r2 r3
    have hch : IsChain (write (write (write s.mem ctx r1) ctx r2) ctx r3) s.listHead
        (ini ++ [last]) :=
      isChain_write_fresh r3 (isChain_write_fresh r2 (isChain_write_fresh r1 h hfresh) hfresh)
        hfresh
    have := tailLoop_chain fuel hch
    simpa [hfuel] using this
  have hload3 : ∀ (r1 r2 r3 : ThreadContext) (a : Addr), a ≠ ctx →
      load (write (write (write s.mem ctx r1) ctx r2) ctx r3) a = load s.mem a := by
    intro r1 r2 r3 a ha
    rw [load_write_other _ _ _ _ ha, load_write_other _ _ _ _ ha, load_write_other _ _ _ _ ha]
  unfold thread_create
  simp only [hc0, if_false]
  split
  · rename_i hnone
    obtain ⟨cur, hc⟩ := hld _
    rw [hc] at hnone
    cases hnone
  · simp only [hcount, htail, hload3 _ _ _ _ hlastne, hrl]
    refine ⟨_, rfl, rfl, rfl, rfl, ?_, ?_, ?_⟩
    · refine isChain_snoc r ?_ h ?_ ?_ ?_ ?_
      rotate_left
      · intro x hx
        have hxmem : x ∈ ini ++ [last] := List.mem_append_left _ hx
        have hxc : x ≠ ctx := fun e => hfresh (e ▸ hxmem)
        have hxl : x ≠ last := by
          intro e
          have hnd := isChain_nodup h
          rw [List.nodup_append] at hnd
          exact hnd.2.2 hx (by simp [e])
        simp only
        rw [load_write_other _ _ _ _ hxl, hload3 _ _ _ _ hxc]
      · simp only
        rw [load_write_same _ _ _ (ne_zero_of_load hrl)]
      · simp only
        rw [load_write_other _ _ _ _ (Ne.symm hlastne), load_write_same _ _ _ hc0]
        exact rfl
      · rfl
    · intro a ha
      simp only
      by_cases hal : a = last
      · subst hal
        rw [load_write_same _ _ _ (ne_zero_of_load hrl), hrl]
        simp [eraseNext]
      · rw [load_write_other _ _ _ _ hal, hload3 _ _ _ _ ha]
    · simp only
      rw [load_write_other _ _ _ _ (Ne.symm hlastne), load_write_same _ _ _ hc0]
      exact ⟨_, rfl, rfl, rfl, rfl, rfl⟩

/-- A `thread_create` that returns had enough fuel to walk the chain. -/
theorem thread_create_fuel (cfg : Config) {s s1 : Kernel} {ini : List Addr} {last : Addr}
    {fuel ctx stackStart stackSize entryPoint arg : Nat} {name : List Nat} {eflags : Nat}
    (h : IsChain s.mem s.listHead (ini ++ [last])) (hfresh : ctx ∉ ini ++ [last])
    (hok : thread_create cfg fuel ctx stackStart stackSize entryPoint arg name eflags s
      = .ok s1) : ini.length < fuel := by
  by_contra hlt
  have hcount : ∀ r1 r2 : ThreadContext,
      thread_number_of_threads fuel { s with mem := write (write s.mem ctx r1) ctx r2 }
        = .error .outOfFuel := by
    intro r1 r2
    have hch : IsChain (write (write s.mem ctx r1) ctx r2) s.listHead (ini ++ [last]) :=
      isChain_write_fresh r2 (isChain_write_fresh r1 h hfresh) hfresh
    have := thread_number_of_threads_chain
      (s := { s with mem := write (write s.mem ctx r1) ctx r2 }) fuel hch (by simp)
    simpa [hlt] using this
  unfold thread_create at hok
  split at hok
  · cases hok
  · simp only [hcount] at hok
    split at hok <;> cases hok

/-! ## `thread_kill` on a chain -/

theorem split_unique {l1 l2 m1 m2 : List Addr} {k : Addr}
    (hnd : (l1 ++ k :: l2).Nodup) (he : l1 ++ k :: l2 = m1 ++ k :: m2) :
    l1 = m1 ∧ l2 = m2 := by
  induction l1 generalizing m1 with
  | nil =>
    cases m1 with
    | nil => simpa using he
    | cons y ys =>
      simp only [List.nil_append, List.cons_append, List.cons.injEq] at he
      obtain ⟨hy, hrest⟩ := he
      have hk : k ∉ l2 := (List.nodup_cons.mp hnd).1
      exact absurd (by rw [hrest]; simp) hk
  | cons x xs ih =>
    cases m1 with
    | nil =>
      simp only [List.nil_append, List.cons_append, List.cons.injEq] at he
      obtain ⟨hx, _⟩ := he
      have hx1 : x ∉ xs ++ k :: l2 := (List.nodup_cons.mp hnd).1
      exact absurd (by rw [hx]; simp) hx1
    | cons y ys =>
      simp only [List.cons_append, List.cons.injEq] at he
      obtain ⟨hxy, hrest⟩ := he
      have hnd1 : (xs ++ k :: l2).Nodup := (List.nodup_cons.mp hnd).2
      obtain ⟨h1, h2⟩ := ih hnd1 hrest
      exact ⟨by rw [hxy, h1], h2⟩

theorem pidAt_of_load {mem : Addr → Option ThreadContext} {a : Addr} {r : ThreadContext}
    (h : load mem a = some r) : pidAt mem a = r.pid := by
  simp [pidAt, h]

theorem pidAt_congr {mem mem1 : Addr → Option ThreadContext} {a : Addr}
    (h : (load mem1 a).map eraseNext = (load mem a).map eraseNext) :
    pidAt mem1 a = pidAt mem a := by
  unfold pidAt
  cases h1 : load mem1 a <;> cases h2 : load mem a <;> simp [h1, h2] at h ⊢
  have := congrArg ThreadContext.pid h
  simpa [eraseNext] using this

/-- When the first loop of `thread_kill` ends with `found_pid = 1`, the record it found is
the first one in chain order that carries the pid, and unless it is the head it is not the
last record of the chain. -/
theorem killSearch_found {mem : Addr → Option ThreadContext} {fuel : Nat} :
    ∀ {a : Addr} {l : List Addr} {pid k : Nat}, IsChain mem a l →
      killSearch mem fuel a pid = .ok (some k) →
      ∃ l1 l2, l = l1 ++ k :: l2 ∧ pidAt mem k = pid ∧ (∀ y ∈ l1, pidAt mem y ≠ pid)
        ∧ (l1 ≠ [] → l2 ≠ []) := by
  induction fuel with
  | zero =>
    intro a l pid k _ h
    simp [killSearch] at h
  | succ f ih =>
    intro a l pid k hch h
    unfold killSearch at h
    cases hr : load mem a with
    | none => simp [hr] at h
    | some r =>
      cases l with
      | nil =>
        have h0 : a = 0 := hch
        exact absurd h0 (ne_zero_of_load hr)
      | cons x xs =>
        obtain ⟨hx, r1, hr1, hrest⟩ := hch
        subst hx
        rw [hr] at hr1
        cases hr1
        simp only [hr] at h
        by_cases hp : r.pid = pid
        · simp only [hp, if_true, Except.ok.injEq, Option.some.injEq] at h
          subst h
          exact ⟨[], xs, rfl, by rw [pidAt_of_load hr, hp], by simp, fun h => absurd rfl h⟩
        · simp only [hp, if_false] at h
          cases hn : load mem r.next with
          | none => simp [hn] at h
          | some rn =>
            simp only [hn] at h
            by_cases hz : rn.next = 0
            · simp [hz] at h
            · simp only [hz, if_false] at h
              obtain ⟨l1, l2, hl, hpid, hbefore, hlast⟩ := ih hrest h
              refine ⟨a :: l1, l2, by rw [hl]; rfl, hpid, ?_, ?_⟩
              · intro y hy
                rcases List.mem_cons.mp hy with rfl | hy
                · rw [pidAt_of_load hr]
                  exact hp
                · exact hbefore y hy
              · intro _
                cases l1 with
                | cons y ys => exact hlast (by simp)
                | nil =>
                  intro hl2
                  rw [hl, hl2] at hrest
                  obtain ⟨hk, rk, hrk, hend⟩ := hrest
                  rw [hk, hrk] at hn
                  cases hn
                  exact hz hend

/-- When the predecessor loop ends, it stands on the record right before the target. -/
theorem findPrev_found {mem : Addr → Option ThreadContext} {fuel : Nat} :
    ∀ {a : Addr} {l : List Addr} {t p : Addr}, IsChain mem a l → t ≠ 0 →
      findPrev mem fuel a t = .ok p →
      ∃ l1 l2, l = l1 ++ p :: t :: l2 := by
  induction fuel with
  | zero =>
    intro a l t p _ _ h
    simp [findPrev] at h
  | succ f ih =>
    intro a l t p hch ht h
    unfold findPrev at h
    cases hr : load mem a with
    | none => simp [hr] at h
    | some r =>
      cases l with
      | nil =>
        have h0 : a = 0 := hch
        exact absurd h0 (ne_zero_of_load hr)
      | cons x xs =>
        obtain ⟨hx, r1, hr1, hrest⟩ := hch
        subst hx
        rw [hr] at hr1
        cases hr1
        simp only [hr] at h
        by_cases hn : r.next = t
        · simp only [hn, ne_eq, not_true_eq_false, if_false, Except.ok.injEq] at h
          subst h
          cases xs with
          | nil =>
            have h0 : r.next = 0 := hrest
            exact absurd (hn ▸ h0) ht
          | cons y ys =>
            have hy : r.next = y := hrest.1
            refine ⟨[], ys, ?_⟩
            rw [← hy, hn]
            rfl
        · simp only [ne_eq, hn, not_false_eq_true, if_true] at h
          obtain ⟨l1, l2, hl⟩ := ih hrest ht h
          exact ⟨a :: l1, l2, by rw [hl]; rfl⟩

/-- Splicing a record out of a chain by redirecting the link of its predecessor. -/
theorem isChain_remove {mem : Addr → Option ThreadContext} {l1 l2 : List Addr}
    {a p k : Addr} {rp rk : ThreadContext}
    (h : IsChain mem a (l1 ++ p :: k :: l2)) (hp : load mem p = some rp)
    (hk : load mem k = some rk) :
    IsChain (write mem p { rp with next := rk.next }) a (l1 ++ p :: l2) := by
  have hnd := isChain_nodup h
  obtain ⟨m, h1, h2⟩ := isSeg_append.mp h
  obtain ⟨hm, rp1, hrp1, h3⟩ := h2
  obtain ⟨_, rk1, hrk1, h4⟩ := h3
  rw [hk] at hrk1
  cases hrk1
  have hpl1 : p ∉ l1 := by
    intro hmem
    rw [List.nodup_append] at hnd
    exact hnd.2.2 hmem (List.mem_cons_self _ _)
  have hpl2 : p ∉ l2 := by
    intro hmem
    have hnd1 : (p :: k :: l2).Nodup := (List.nodup_append.mp hnd).2.1
    exact (List.nodup_cons.mp hnd1).1 (List.mem_cons_of_mem _ hmem)
  refine isSeg_append.mpr ⟨m, ?_, ?_⟩
  · refine isSeg_congr (fun x hx => ?_) h1
    have hxp : x ≠ p := fun e => hpl1 (e ▸ hx)
    rw [load_write_other _ _ _ _ hxp]
  · refine ⟨hm, _, load_write_same _ _ _ (ne_zero_of_load hp), ?_⟩
    refine isSeg_congr (fun x hx => ?_) h4
    have hxp : x ≠ p := fun e => hpl2 (e ▸ hx)
    rw [load_write_other _ _ _ _ hxp]

theorem thread_kill_status {fuel pid st : Nat} {s s1 : Kernel}
    (h : thread_kill fuel pid s = .ok (st, s1)) : st = 0 ∨ (st = 1 ∧ s1 = s) := by
  unfold thread_kill at h
  split at h
  · cases h
  · cases h
    exact Or.inr ⟨rfl, rfl⟩
  · split at h
    · cases h
    · split at h
      · cases h
      · cases h
        exact Or.inl rfl

/-- A successful `thread_kill` splices out the first record carrying the pid, which is
neither the head nor the last record, and logs the two `kfree` calls. -/
theorem thread_kill_chain {s s1 : Kernel} {l : List Addr} {fuel pid : Nat}
    (h : IsChain s.mem s.listHead l) (hk : thread_kill fuel pid s = .ok (0, s1)) :
    ∃ l1 p k l2 rk, l = l1 ++ p :: k :: l2 ∧ l2 ≠ [] ∧ load s.mem k = some rk
      ∧ rk.pid = pid
      ∧ (∀ y ∈ l1 ++ [p], pidAt s.mem y ≠ pid)
      ∧ s1.listHead = s.listHead ∧ s1.currentContext = s.currentContext
      ∧ IsChain s1.mem s1.listHead (l1 ++ p :: l2)
      ∧ (∀ a, (load s1.mem a).map eraseNext = (load s.mem a).map eraseNext)
      ∧ s1.freed = s.freed ++ [rk.esp, k] := by
  unfold thread_kill at hk
  cases hs : killSearch s.mem fuel s.listHead pid with
  | error e => simp [hs] at hk
  | ok o =>
    cases o with
    | none => simp [hs] at hk
    | some k =>
      simp only [hs] at hk
      cases hf : findPrev s.mem fuel s.listHead k with
      | error e => simp [hf] at hk
      | ok p =>
        simp only [hf] at hk
        obtain ⟨m1, m2, hm, hpid, hbefore, hnotlast⟩ := killSearch_found h hs
        have hkl : k ∈ l := by rw [hm]; simp
        have hk0 : k ≠ 0 := isChain_ne_zero h k hkl
        obtain ⟨l1, l2, hl⟩ := findPrev_found h hk0 hf
        have hnd := isChain_nodup h
        have hsplit : m1 = l1 ++ [p] ∧ m2 = l2 := by
          refine split_unique (k := k) (hm ▸ hnd) ?_
          rw [← hm, hl]
          simp
        obtain ⟨rk, hrk⟩ := isChain_load h k hkl
        have hpl : p ∈ l := by rw [hl]; simp
        obtain ⟨rp, hrp⟩ := isChain_load h p hpl
        have hpk : k ≠ p := by
          intro e
          rw [hl, e] at hnd
          have hnd1 : (p :: p :: l2).Nodup := (List.nodup_append.mp hnd).2.1
          exact (List.nodup_cons.mp hnd1).1 (List.mem_cons_self _ _)
        simp only [unlink, hrk, hrp, load_write_other _ _ _ _ hpk] at hk
        simp only [Except.ok.injEq, Prod.mk.injEq, true_and] at hk
        subst hk
        refine ⟨l1, p, k, l2, rk, hl, ?_, hrk, ?_, ?_, rfl, rfl, ?_, ?_, rfl⟩
        · rw [← hsplit.2]
          exact hnotlast (by rw [hsplit.1]; simp)
        · rw [← pidAt_of_load hrk]
          exact hpid
        · rw [← hsplit.1]
          exact hbefore
        · exact isChain_remove (hl ▸ h) hrp hrk
        · intro a
          simp only
          by_cases hap : a = p
          · subst hap
            rw [load_write_same _ _ _ (ne_zero_of_load hrp), hrp]
            simp [eraseNext]
          · rw [load_write_other _ _ _ _ hap]

/-- No `thread_kill` that returns removes the last record of the chain, whatever the pid:
the record appended by the latest `thread_create` stays the last record. -/
theorem thread_kill_keeps_last {s s1 : Kernel} {ini : List Addr} {last : Addr}
    {fuel pid status : Nat} (h : IsChain s.mem s.listHead (ini ++ [last]))
    (hk : thread_kill fuel pid s = .ok (status, s1)) :
    ∃ ini1, IsChain s1.mem s1.listHead (ini1 ++ [last]) := by
  rcases thread_kill_status hk with h0 | ⟨_, hs⟩
  · subst h0
    obtain ⟨l1, p, k, l2, rk, hl, hl2, _, _, _, _, _, hch1, _, _⟩ := thread_kill_chain h hk
    rcases List.eq_nil_or_concat l2 with hnil | ⟨m, z, hm⟩
    · exact absurd hnil hl2
    · rw [List.concat_eq_append] at hm
      subst hm
      have he : ini ++ [last] = (l1 ++ p :: k :: m) ++ [z] := by
        rw [hl]
        simp
      have hz : [last] = [z] := List.append_inj_right' he rfl
      simp only [List.cons.injEq, and_true] at hz
      subst hz
      refine ⟨l1 ++ p :: m, ?_⟩
      have : l1 ++ p :: m ++ [last] = l1 ++ p :: (m ++ [last]) := by simp
      rw [this]
      exact hch1
  · subst hs
    exact ⟨ini, h⟩

/-- On a chain of at least two records none of which carries the pid, the first loop of
`thread_kill` ends by `break`. -/
theorem killSearch_absent {mem : Addr → Option ThreadContext} {pid : Nat} {ys : List Addr} :
    ∀ {a x y : Addr} (fuel : Nat), IsChain mem a (x :: y :: ys) →
      (∀ z ∈ x :: y :: ys, pidAt mem z ≠ pid) → ys.length < fuel →
      killSearch mem fuel a pid = .ok none := by
  induction ys with
  | nil =>
    intro a x y fuel h hpid hfuel
    obtain ⟨hx, r, hr, hrest⟩ := h
    obtain ⟨hy, ry, hry, hend⟩ := hrest
    have hend0 : ry.next = 0 := hend
    subst hx
    have hp : r.pid ≠ pid := by
      rw [← pidAt_of_load hr]
      exact hpid a (by simp)
    cases fuel with
    | zero => omega
    | succ f =>
      rw [← hy] at hry
      simp [killSearch, hr, hp, hry, hend0]
  | cons z zs ih =>
    intro a x y fuel h hpid hfuel
    obtain ⟨hx, r, hr, hrest⟩ := h
    have hrest1 := hrest
    obtain ⟨hy, ry, hry, hrest2⟩ := hrest
    subst hx
    have hp : r.pid ≠ pid := by
      rw [← pidAt_of_load hr]
      exact hpid a (by simp)
    have hz : ry.next ≠ 0 := by
      obtain ⟨e, rz, hrz, _⟩ := hrest2
      rw [e]
      exact ne_zero_of_load hrz
    cases fuel with
    | zero => omega
    | succ f =>
      rw [← hy] at hry
      have hrec := ih f hrest1 (fun w hw => hpid w (List.mem_cons_of_mem _ hw))
        (by simp only [List.length_cons] at hfuel; omega)
      simp [killSearch, hr, hp, hry, hz, hrec]

/-- On a chain of at least two records, `thread_kill` of a pid that no record carries
returns the status 1 and leaves the whole state as it was. -/
theorem thread_kill_absent {s : Kernel} {l : List Addr} {fuel pid : Nat}
    (h : IsChain s.mem s.listHead l) (h2 : 2 ≤ l.length)
    (hpid : ∀ z ∈ l, pidAt s.mem z ≠ pid) (hfuel : l.length ≤ fuel) :
    thread_kill fuel pid s = .ok (1, s) := by
  match l, h, h2, hpid, hfuel with
  | x :: y :: ys, h, _, hpid, hfuel =>
    have hs := killSearch_absent fuel h hpid
      (by simp only [List.length_cons] at hfuel; omega)
    simp [thread_kill, hs]

/-! ## Sequences of creates -/

theorem nodup_length_le {l : List Nat} {n : Nat} (hnd : l.Nodup) (hb : ∀ x ∈ l, x < n) :
    l.length ≤ n := by
  have hsub : l.toFinset ⊆ Finset.range n := fun x hx =>
    Finset.mem_range.mpr (hb x (List.mem_toFinset.mp hx))
  have hcard := Finset.card_le_card hsub
  rwa [List.toFinset_card_of_nodup hnd, Finset.card_range] at hcard

/-- A sequence of creates on distinct context memory outside the chain: every call returns,
the new records follow the old chain in creation order, the old records keep their pids and
the new ones get consecutive pids. -/
theorem createAll_chain (cfg : Config) (fuel : Nat) (cs : List CreateArgs) :
    ∀ (s : Kernel) (ini : List Addr) (last : Addr),
      IsChain s.mem s.listHead (ini ++ [last]) → s.currentContext ∈ ini ++ [last] →
      (∀ c ∈ cs, c.contextAddress ≠ 0) →
      (ini ++ [last] ++ cs.map (fun c => c.contextAddress)).Nodup →
      ini.length + cs.length ≤ fuel → ini.length + cs.length < 4294967296 →
      ∃ s1, createAll cfg fuel cs s = .ok s1 ∧ s1.listHead = s.listHead
        ∧ s1.currentContext = s.currentContext ∧ s1.freed = s.freed
        ∧ IsChain s1.mem s1.listHead (ini ++ [last] ++ cs.map (fun c => c.contextAddress))
        ∧ (∀ a ∈ ini ++ [last], pidAt s1.mem a = pidAt s.mem a)
        ∧ (cs.map (fun c => pidAt s1.mem c.contextAddress)
            = List.range' (ini.length + 1) cs.length) := by
  induction cs with
  | nil =>
    intro s ini last h _ _ _ _ _
    exact ⟨s, rfl, rfl, rfl, rfl, by simpa using h, fun _ _ => rfl, rfl⟩
  | cons c cs ih =>
    intro s ini last h hcur hc0 hnd hfuel hlen
    simp only [List.length_cons] at hfuel hlen
    simp only [List.map_cons] at hnd
    have hfresh : c.contextAddress ∉ ini ++ [last] := by
      intro hmem
      rw [List.nodup_append] at hnd
      exact hnd.2.2 hmem (List.mem_cons_self _ _)
    obtain ⟨s1, hs1, hhead1, hcur1, hfreed1, hch1, hrec1, rc, hrc, hpid, _⟩ :=
      thread_create_chain cfg fuel c.contextAddress c.stackStart c.stackSize c.entryPoint
        c.arg c.name c.eflags h (Or.inr (isChain_load h _ hcur))
        (hc0 c (List.mem_cons_self _ _)) hfresh (by omega)
    have hnd1 : (ini ++ [last] ++ [c.contextAddress]
        ++ cs.map (fun c => c.contextAddress)).Nodup := by
      simpa [List.append_assoc] using hnd
    have hcur1m : s1.currentContext ∈ ini ++ [last] ++ [c.contextAddress] := by
      rw [hcur1]
      exact List.mem_append_left _ hcur
    have hlen1 : (ini ++ [last]).length = ini.length + 1 := by simp
    obtain ⟨s2, hs2, hhead2, hcur2, hfreed2, hch2, hrec2, hpids2⟩ :=
      ih s1 (ini ++ [last]) c.contextAddress hch1 hcur1m
        (fun d hd => hc0 d (List.mem_cons_of_mem _ hd)) hnd1
        (by rw [hlen1]; omega) (by rw [hlen1]; omega)
    refine ⟨s2, ?_, by rw [hhead2, hhead1], by rw [hcur2, hcur1], by rw [hfreed2, hfreed1],
      ?_, ?_, ?_⟩
    · simp only [createAll, create] at hs2 ⊢
      rw [hs1]
      exact hs2
    · simpa [List.append_assoc] using hch2
    · intro a ha
      have hane : a ≠ c.contextAddress := fun e => hfresh (e ▸ ha)
      rw [hrec2 a (List.mem_append_left _ ha)]
      exact pidAt_congr (hrec1 a hane)
    · simp only [List.map_cons, List.length_cons]
      rw [hpids2, hlen1, hrec2 c.contextAddress (by simp), pidAt_of_load hrc, hpid]
      have hw : wrap32 (wrap32 ini.length + 1) = ini.length + 1 := by
        unfold wrap32
        omega
      rw [hw]
      rfl

theorem thread_init_chain (cfg : Config) (base : Addr) (s0 : Kernel) (hb : base ≠ 0) :
    ∃ s, thread_init cfg base s0 = .ok s ∧ s.listHead = base ∧ s.currentContext = base
      ∧ s.freed = s0.freed ∧ IsChain s.mem s.listHead [base] ∧ pidAt s.mem base = 0
      ∧ load s.mem base = some (zeroContext cfg) := by
  have hi : thread_init cfg base s0
      = .ok { s0 with listHead := base, currentContext := base,
                      mem := write s0.mem base (zeroContext cfg) } := by
    simp [thread_init, hb]
  refine ⟨_, hi, rfl, rfl, rfl, ?_, ?_, ?_⟩
  · exact ⟨rfl, zeroContext cfg, load_write_same _ _ _ hb, rfl⟩
  · simp only
    rw [pidAt_of_load (load_write_same _ _ _ hb)]
    rfl
  · exact load_write_same _ _ _ hb

/-! ## Registries built by creates and successful kills -/

theorem thread_create_nonnull (cfg : Config) {s s1 : Kernel}
    {fuel ctx stackStart stackSize entryPoint arg : Nat} {name : List Nat} {eflags : Nat}
    (hok : thread_create cfg fuel ctx stackStart stackSize entryPoint arg name eflags s
      = .ok s1) : ctx ≠ 0 := by
  intro h0
  simp [thread_create, h0] at hok

/-- In a registry built by creates and successful kills the chain is well formed, the head
is current, all addresses are 32-bit and the length is `creates - kills + 1`. -/
theorem built_chain (cfg : Config) {s : Kernel} {creates kills : Nat}
    (hb : Built cfg s creates kills) :
    ∃ l, IsChain s.mem s.listHead l ∧ l ≠ [] ∧ l.length + kills = creates + 1
      ∧ s.currentContext = s.listHead ∧ ∀ x ∈ l, x < 4294967296 := by
  induction hb with
  | init s0 s base hlt hinit =>
    have hb0 : base ≠ 0 := by
      intro h0
      simp [thread_init, h0] at hinit
    obtain ⟨s1, hs1, hhead, hcur, _, hch, _, _⟩ := thread_init_chain cfg base s0 hb0
    rw [hinit] at hs1
    cases hs1
    refine ⟨[base], hch, by simp, by simp, by rw [hhead, hcur], ?_⟩
    intro x hx
    rw [List.mem_singleton] at hx
    rw [hx]
    exact hlt
  | create s s1 creates kills fuel c _ hlt hfresh hok ih =>
    obtain ⟨l, hch, hne, hlen, hcur, hbound⟩ := ih
    rcases List.eq_nil_or_concat l with hnil | ⟨ini, last, hl⟩
    · exact absurd hnil hne
    · rw [List.concat_eq_append] at hl
      subst hl
      have hf := hfresh _ hch
      have hfuel := thread_create_fuel cfg hch hf hok
      have hheadmem : s.listHead ∈ ini ++ [last] := by
        cases ini with
        | nil =>
          have : s.listHead = last := hch.1
          simp [this]
        | cons y ys =>
          have h1 : IsSeg s.mem s.listHead (y :: (ys ++ [last])) 0 := hch
          have : s.listHead = y := h1.1
          simp [this]
      obtain ⟨s2, hs2, hhead2, hcur2, _, hch2, _, _⟩ :=
        thread_create_chain cfg fuel c.contextAddress c.stackStart c.stackSize c.entryPoint
          c.arg c.name c.eflags hch (Or.inr (isChain_load hch _ (hcur ▸ hheadmem)))
          (thread_create_nonnull cfg hok) hf hfuel
      have he : s2 = s1 := by
        have hok1 : thread_create cfg fuel c.contextAddress c.stackStart c.stackSize
            c.entryPoint c.arg c.name c.eflags s = .ok s1 := hok
        rw [hs2] at hok1
        cases hok1
        rfl
      subst he
      refine ⟨_, hch2, by simp, ?_, by rw [hcur2, hhead2, hcur], ?_⟩
      · simp only [List.length_append, List.length_singleton] at hlen ⊢
        omega
      · intro x hx
        rcases List.mem_append.mp hx with hx | hx
        · exact hbound x hx
        · rw [List.mem_singleton] at hx
          rw [hx]
          exact hlt
  | kill s s1 creates kills fuel pid _ hok ih =>
    obtain ⟨l, hch, _, hlen, hcur, hbound⟩ := ih
    obtain ⟨l1, p, k, l2, rk, hl, _, _, _, _, hhead1, hcur1, hch1, _, _⟩ :=
      thread_kill_chain hch hok
    subst hl
    refine ⟨_, hch1, by simp, ?_, by rw [hcur1, hhead1, hcur], ?_⟩
    · simp only [List.length_append, List.length_cons] at hlen ⊢
      omega
    · intro x hx
      apply hbound x
      simp only [List.mem_append, List.mem_cons] at hx ⊢
      tauto

/-! ## The quantum -/

/-- The value `thread_fair_schedule` computes on a chain with `n` records behind the head. -/
theorem thread_fair_schedule_chain {s : Kernel} {l : List Addr} {n : Nat} (fuel : Nat)
    (h : IsChain s.mem s.listHead l) (hl : l.length = n + 1) (hn : n < 4294967296)
    (hfuel : n < fuel) :
    thread_fair_schedule fuel s
      = if n = 0 then .ok 0
        else if 100 / n = 0 then .error .divByZero else .ok (100 / (100 / n)) := by
  cases l with
  | nil => simp at hl
  | cons x xs =>
    have hxs : xs.length = n := by simpa using hl
    have hc := countLoop_chain fuel 0 h (by norm_num)
    rw [hxs, if_pos hfuel, Nat.zero_add, wrap32_of_lt hn] at hc
    unfold thread_fair_schedule
    rw [hc]
    by_cases h0 : n = 0
    · simp [h0]
    · have hpos : n > 0 := Nat.pos_of_ne_zero h0
      simp [h0, hpos]

theorem quantum_pos {n : Nat} (h1 : 1 ≤ n) (h2 : n ≤ 100) :
    100 / n ≠ 0 ∧ 0 < 100 / (100 / n) := by
  have hq : 0 < 100 / n := Nat.div_pos h2 (by omega)
  have hle : 100 / n ≤ 100 := Nat.div_le_self 100 n
  exact ⟨by omega, Nat.div_pos hle hq⟩

theorem quantum_mono {n m : Nat} (h1 : 1 ≤ n) (h2 : n ≤ m) (h3 : m ≤ 100) :
    100 / (100 / n) ≤ 100 / (100 / m) := by
  have hm : 0 < 100 / m := Nat.div_pos h3 (by omega)
  have hle : 100 / m ≤ 100 / n := Nat.div_le_div_left h2 (by omega)
  exact Nat.div_le_div_left hle hm

/-! ## Scheduler ticks -/

theorem saveInto_next (cfg : Config) (regs : registers_t) (c : ThreadContext) :
    (saveInto cfg regs c).next = c.next := by
  unfold saveInto
  split <;> rfl

theorem saveInto_next_switch (cfg : Config) (regs : registers_t) (c : ThreadContext) :
    (saveInto cfg regs c).next_switch = c.next_switch := by
  unfold saveInto
  split <;> rfl

/-- Overwriting a record without changing its link keeps every chain. -/
theorem isChain_write_same_next {mem : Addr → Option ThreadContext} {l : List Addr}
    {a x : Addr} {r r1 : ThreadContext} (h : IsChain mem a l) (hr : load mem x = some r)
    (hn : r1.next = r.next) : IsChain (write mem x r1) a l := by
  refine isSeg_congr (fun y _ => ?_) h
  by_cases hy : y = x
  · subst hy
    rw [load_write_same _ _ _ (ne_zero_of_load hr), hr]
    simp [hn]
  · rw [load_write_other _ _ _ _ hy]

theorem isChain_head_mem {mem : Addr → Option ThreadContext} {l : List Addr} {a : Addr}
    (h : IsChain mem a l) (hne : l ≠ []) : a ∈ l := by
  cases l with
  | nil => exact absurd rfl hne
  | cons x xs =>
    have : a = x := h.1
    simp [this]

/-- The record the scheduler switches to, `current->next` or the head when that is `NULL`,
is a record of the chain, and differs from the current one when the chain has two records
or more. -/
theorem chain_next_mem {mem : Addr → Option ThreadContext} {l : List Addr} {a x : Addr}
    {r : ThreadContext} (h : IsChain mem a l) (hx : x ∈ l) (hr : load mem x = some r) :
    (if r.next = 0 then a else r.next) ∈ l
      ∧ (2 ≤ l.length → (if r.next = 0 then a else r.next) ≠ x) := by
  have hnd := isChain_nodup h
  have hne : l ≠ [] := List.ne_nil_of_mem hx
  obtain ⟨l1, l2, hl⟩ := List.append_of_mem hx
  subst hl
  obtain ⟨m, h1, h2⟩ := isSeg_append.mp h
  obtain ⟨hm, r1, hr1, h3⟩ := h2
  rw [hr] at hr1
  cases hr1
  cases l2 with
  | nil =>
    have h0 : r.next = 0 := h3
    simp only [h0, if_true]
    refine ⟨isChain_head_mem h hne, ?_⟩
    intro hlen
    cases l1 with
    | nil => simp at hlen
    | cons y ys =>
      have h4 : IsSeg mem a (y :: (ys ++ [x])) 0 := h
      have hay : a = y := h4.1
      rw [hay]
      intro e
      have hnd1 : (y :: (ys ++ [x])).Nodup := hnd
      exact (List.nodup_cons.mp hnd1).1 (by rw [e]; simp)
  | cons y ys =>
    obtain ⟨hy, ry, hry, _⟩ := h3
    have hy0 : r.next ≠ 0 := by
      rw [hy]
      exact ne_zero_of_load hry
    simp only [hy0, if_false]
    refine ⟨by rw [hy]; simp, ?_⟩
    intro _ e
    have hnd1 : (x :: y :: ys).Nodup := (List.nodup_append.mp hnd).2.1
    exact (List.nodup_cons.mp hnd1).1 (by rw [← e, hy]; simp)

/-- A tick on an armed record whose deadline has passed: the record is disarmed, the
snapshot is saved into it and the scheduler switches to `current->next`, or to the head
when that is `NULL`. -/
theorem thread_schedule_due (cfg : Config) {s : Kernel} {q : Nat} {rc : ThreadContext}
    (fuel : Nat) (regs : registers_t) (now : Nat)
    (hq : thread_fair_schedule fuel s = .ok q) (hpos : 0 < q)
    (hrc : load s.mem s.currentContext = some rc)
    (harmed : rc.next_switch ≠ 0) (hdue : rc.next_switch ≤ now) :
    thread_schedule cfg fuel regs now s
      = .ok ({ s with
                mem := write (write s.mem s.currentContext { rc with next_switch := 0 })
                  s.currentContext (saveInto cfg regs { rc with next_switch := 0 }),
                currentContext := if rc.next = 0 then s.listHead else rc.next },
             some (if rc.next = 0 then s.listHead else rc.next)) := by
  have hc0 := ne_zero_of_load hrc
  simp only [thread_schedule, hq, hpos, gt_iff_lt, if_true, hrc, harmed, if_false, hdue,
    thread_saveContext, load_write_same _ _ _ hc0, saveInto_next]

/-- A tick on an unarmed record arms it and does not switch. -/
theorem thread_schedule_unarmed (cfg : Config) {s : Kernel} {q : Nat} {rc : ThreadContext}
    (fuel : Nat) (regs : registers_t) (now : Nat)
    (hq : thread_fair_schedule fuel s = .ok q) (hpos : 0 < q)
    (hrc : load s.mem s.currentContext = some rc) (hun : rc.next_switch = 0) :
    thread_schedule cfg fuel regs now s
      = .ok ({ s with
                mem := write s.mem s.currentContext
                  { rc with next_switch := (armDeadline q now rc.priority).2 } },
             none) := by
  simp only [thread_schedule, hq, hpos, gt_iff_lt, if_true, hrc, hun]

theorem scheduleAll_cons (cfg : Config) {fuel : Nat} {t : registers_t × Nat}
    {ts : List (registers_t × Nat)} {s s1 s2 : Kernel} {sw : Option Addr}
    {log : List (Option Addr × Addr)}
    (h1 : thread_schedule cfg fuel t.1 t.2 s = .ok (s1, sw))
    (h2 : scheduleAll cfg fuel ts s1 = .ok (s2, log)) :
    scheduleAll cfg fuel (t :: ts) s = .ok (s2, (sw, s1.currentContext) :: log) := by
  simp only [scheduleAll, h1, h2]

/-- Round robin from any position: when the current record and all records behind it are
armed with a deadline that has passed, one tick per record behind the current one visits
these records in chain order, and one more tick wraps to the head. -/
theorem scheduleAll_round (cfg : Config) (fuel now n : Nat) (rest : List Addr) :
    ∀ (s : Kernel) (pre : List Addr) (c : Addr) (ticks : List (registers_t × Nat)),
      IsChain s.mem s.listHead (pre ++ c :: rest) → (pre ++ c :: rest).length = n + 1 →
      1 ≤ n → n ≤ 100 → n < fuel → s.currentContext = c →
      (∀ a ∈ c :: rest, ∃ r, load s.mem a = some r ∧ r.next_switch ≠ 0
        ∧ r.next_switch ≤ now) →
      ticks.length = rest.length + 1 → (∀ t ∈ ticks, now ≤ t.2) →
      ∃ s1, scheduleAll cfg fuel ticks s
          = .ok (s1, rest.map (fun a => (some a, a)) ++ [(some s.listHead, s.listHead)])
        ∧ s1.currentContext = s.listHead ∧ s1.listHead = s.listHead
        ∧ IsChain s1.mem s1.listHead (pre ++ c :: rest) ∧ s1.freed = s.freed := by
  induction rest with
  | nil =>
    intro s pre c ticks hch hlen hn1 hn100 hfuel hcur harmed hticks htime
    match ticks, hticks, htime with
    | [t], _, htime =>
      obtain ⟨rc, hrc, ha, hd⟩ := harmed c (by simp)
      rw [← hcur] at hrc
      have hq := thread_fair_schedule_chain fuel hch hlen (by omega) hfuel
      rw [if_neg (by omega), if_neg (quantum_pos hn1 hn100).1] at hq
      have hstep := thread_schedule_due cfg fuel t.1 t.2 hq (quantum_pos hn1 hn100).2 hrc ha
        (le_trans hd (htime t (by simp)))
      have hnext : rc.next = 0 := by
        have hch1 : IsChain s.mem s.listHead (pre ++ [c]) := hch
        rw [← hcur] at hch1
        exact isChain_last_next hch1 hrc
      have hif : (if rc.next = 0 then s.listHead else rc.next) = s.listHead := by
        rw [if_pos hnext]
      rw [hif] at hstep
      refine ⟨_, scheduleAll_cons cfg hstep rfl, rfl, rfl, ?_, rfl⟩
      simp only
      exact isChain_write_same_next (isChain_write_same_next hch hrc rfl)
        (load_write_same _ _ _ (ne_zero_of_load hrc))
        (by rw [saveInto_next])
  | cons d rest ih =>
    intro s pre c ticks hch hlen hn1 hn100 hfuel hcur harmed hticks htime
    match ticks, hticks, htime with
    | t :: ts, hticks, htime =>
      obtain ⟨rc, hrc, ha, hd⟩ := harmed c (by simp)
      rw [← hcur] at hrc
      have hq := thread_fair_schedule_chain fuel hch hlen (by omega) hfuel
      rw [if_neg (by omega), if_neg (quantum_pos hn1 hn100).1] at hq
      have hstep := thread_schedule_due cfg fuel t.1 t.2 hq (quantum_pos hn1 hn100).2 hrc ha
        (le_trans hd (htime t (by simp)))
      have hnd := isChain_nodup hch
      have hnext : rc.next = d := by
        obtain ⟨m, _, h2⟩ := isSeg_append.mp hch
        obtain ⟨hm, r1, hr1, h3⟩ := h2
        rw [← hcur, hrc] at hr1
        cases hr1
        exact h3.1
      have hd0 : d ≠ 0 := isChain_ne_zero hch d (by simp)
      have hnext0 : rc.next ≠ 0 := by rw [hnext]; exact hd0
      have hif : (if rc.next = 0 then s.listHead else rc.next) = d := by
        rw [if_neg hnext0, hnext]
      rw [hif] at hstep
      have hch1 : IsChain
          (write (write s.mem s.currentContext { rc with next_switch := 0 })
            s.currentContext (saveInto cfg t.1 { rc with next_switch := 0 }))
          s.listHead ((pre ++ [c]) ++ d :: rest) := by
        rw [List.append_assoc]
        exact isChain_write_same_next (isChain_write_same_next hch hrc rfl)
          (load_write_same _ _ _ (ne_zero_of_load hrc))
          (by rw [saveInto_next])
      have hcnot : ∀ a ∈ d :: rest, a ≠ s.currentContext := by
        intro a hmem e
        have hnd1 : (c :: d :: rest).Nodup := (List.nodup_append.mp hnd).2.1
        rw [hcur] at e
        exact (List.nodup_cons.mp hnd1).1 (e ▸ hmem)
      obtain ⟨s2, hs2, hcur2, hhead2, hch2, hfreed2⟩ :=
        ih { s with
              mem := write (write s.mem s.currentContext { rc with next_switch := 0 })
                s.currentContext (saveInto cfg t.1 { rc with next_switch := 0 }),
              currentContext := d }
          (pre ++ [c]) d ts hch1 (by simpa using hlen) hn1 hn100 hfuel rfl
          (fun a hmem => by
            obtain ⟨r, hr, h1, h2⟩ := harmed a (List.mem_cons_of_mem _ hmem)
            refine ⟨r, ?_, h1, h2⟩
            simp only
            rw [load_write_other _ _ _ _ (hcnot a hmem),
              load_write_other _ _ _ _ (hcnot a hmem), hr])
          (by simpa using hticks)
          (fun u hu => htime u (List.mem_cons_of_mem _ hu))
      refine ⟨s2, scheduleAll_cons cfg hstep hs2, hcur2, hhead2, ?_, hfreed2⟩
      rw [List.append_assoc] at hch2
      exact hch2

theorem armDeadline_neg (q now : Nat) {p : Int} (hp : p < 0) :
    armDeadline q now p = (.urgent, wrap32 (now + 1)) := by
  unfold armDeadline
  rw [if_neg (by omega), if_pos hp]

/-- A tick that returns keeps the chain, and the current record in it. -/
theorem thread_schedule_keeps (cfg : Config) {s s1 : Kernel} {l : List Addr} {fuel now : Nat}
    {regs : registers_t} {sw : Option Addr}
    (hch : IsChain s.mem s.listHead l) (hcur : s.currentContext ∈ l)
    (h : thread_schedule cfg fuel regs now s = .ok (s1, sw)) :
    IsChain s1.mem s1.listHead l ∧ s1.currentContext ∈ l := by
  obtain ⟨rc, hrc⟩ := isChain_load hch _ hcur
  cases hq : thread_fair_schedule fuel s with
  | error e => simp [thread_schedule, hq] at h
  | ok q =>
    by_cases hpos : 0 < q
    · by_cases hun : rc.next_switch = 0
      · rw [thread_schedule_unarmed cfg fuel regs now hq hpos hrc hun] at h
        simp only [Except.ok.injEq, Prod.mk.injEq] at h
        obtain ⟨h1, _⟩ := h
        subst h1
        exact ⟨isChain_write_same_next hch hrc rfl, hcur⟩
      · by_cases hdue : rc.next_switch ≤ now
        · rw [thread_schedule_due cfg fuel regs now hq hpos hrc hun hdue] at h
          simp only [Except.ok.injEq, Prod.mk.injEq] at h
          obtain ⟨h1, _⟩ := h
          subst h1
          refine ⟨?_, (chain_next_mem hch hcur hrc).1⟩
          exact isChain_write_same_next (isChain_write_same_next hch hrc rfl)
            (load_write_same _ _ _ (ne_zero_of_load hrc))
            (by rw [saveInto_next])
        · simp only [thread_schedule, hq, hpos, gt_iff_lt, if_true, hrc, hun, if_false, hdue,
            Except.ok.injEq, Prod.mk.injEq] at h
          obtain ⟨h1, _⟩ := h
          subst h1
          exact ⟨hch, hcur⟩
    · simp only [thread_schedule, hq, hpos, gt_iff_lt, if_false, Except.ok.injEq,
        Prod.mk.injEq] at h
      obtain ⟨h1, _⟩ := h
      subst h1
      exact ⟨hch, hcur⟩

theorem thread_set_priority_keeps {s s1 : Kernel} {l : List Addr} {priority : Int}
    (hch : IsChain s.mem s.listHead l) (hcur : s.currentContext ∈ l)
    (h : thread_set_priority priority s = .ok s1) :
    IsChain s1.mem s1.listHead l ∧ s1.currentContext ∈ l := by
  obtain ⟨rc, hrc⟩ := isChain_load hch _ hcur
  simp only [thread_set_priority, hrc, Except.ok.injEq] at h
  subst h
  exact ⟨isChain_write_same_next hch hrc rfl, hcur⟩

/-- A create on context memory outside the chain that returns has appended the record. -/
theorem create_keeps (cfg : Config) {s s1 : Kernel} {l : List Addr} {fuel : Nat}
    {c : CreateArgs} (hch : IsChain s.mem s.listHead l) (hcur : s.currentContext ∈ l)
    (hfresh : c.contextAddress ∉ l) (h : create cfg fuel c s = .ok s1) :
    IsChain s1.mem s1.listHead (l ++ [c.contextAddress]) ∧ s1.currentContext ∈ l := by
  rcases List.eq_nil_or_concat l with hnil | ⟨ini, last, hl⟩
  · rw [hnil] at hcur
    cases hcur
  · rw [List.concat_eq_append] at hl
    subst hl
    have hfuel := thread_create_fuel cfg hch hfresh h
    obtain ⟨s2, hs2, _, hcur2, _, hch2, _, _⟩ :=
      thread_create_chain cfg fuel c.contextAddress c.stackStart c.stackSize c.entryPoint
        c.arg c.name c.eflags hch (Or.inr (isChain_load hch _ hcur))
        (thread_create_nonnull cfg h) hfresh hfuel
    have he : s2 = s1 := by
      have hok1 : thread_create cfg fuel c.contextAddress c.stackStart c.stackSize
          c.entryPoint c.arg c.name c.eflags s = .ok s1 := h
      rw [hs2] at hok1
      cases hok1
      rfl
    subst he
    exact ⟨hch2, by rw [hcur2]; exact hcur⟩

/-- A `thread_kill` that fails, or is for a pid other than that of the current record,
keeps the current record in the chain. -/
theorem thread_kill_keeps {s s1 : Kernel} {l : List Addr} {fuel pid status : Nat}
    (hch : IsChain s.mem s.listHead l) (hcur : s.currentContext ∈ l)
    (hpid : status = 0 → pidAt s.mem s.currentContext ≠ pid)
    (h : thread_kill fuel pid s = .ok (status, s1)) :
    ∃ l1, IsChain s1.mem s1.listHead l1 ∧ s1.currentContext ∈ l1 := by
  rcases thread_kill_status h with h0 | ⟨_, hs⟩
  · subst h0
    obtain ⟨l1, p, k, l2, rk, hl, _, hrk, hk, _, _, hcur1, hch1, _, _⟩ :=
      thread_kill_chain hch h
    refine ⟨_, hch1, ?_⟩
    rw [hcur1]
    have hne : s.currentContext ≠ k := by
      intro e
      apply hpid rfl
      rw [e, pidAt_of_load hrk, hk]
    rw [hl] at hcur
    simp only [List.mem_append, List.mem_cons] at hcur ⊢
    tauto
  · subst hs
    exact ⟨l, hch, hcur⟩

/-! ## Steps that complete keep the chain and its head -/

/-- A `thread_create` that returns could read the current record: it is the new context
memory itself or a record that was readable before. -/
theorem thread_create_current (cfg : Config) {s s1 : Kernel}
    {fuel ctx stackStart stackSize entryPoint arg : Nat} {name : List Nat} {eflags : Nat}
    (hok : thread_create cfg fuel ctx stackStart stackSize entryPoint arg name eflags s
      = .ok s1) :
    s.currentContext = ctx ∨ ∃ r, load s.mem s.currentContext = some r := by
  by_cases he : s.currentContext = ctx
  · exact Or.inl he
  · right
    have hc0 := thread_create_nonnull cfg hok
    cases hc : load s.mem s.currentContext with
    | none =>
      simp only [thread_create, hc0, if_false, load_write_other _ _ _ _ he, hc] at hok
      cases hok
    | some r => exact ⟨r, rfl⟩

/-- A create on context memory outside the chain that returns has appended the record; the
head is unchanged. -/
theorem create_chain (cfg : Config) {s s1 : Kernel} {l : List Addr} {fuel : Nat}
    {c : CreateArgs} (hch : IsChain s.mem s.listHead l) (hne : l ≠ [])
    (hfresh : c.contextAddress ∉ l) (h : create cfg fuel c s = .ok s1) :
    IsChain s1.mem s1.listHead (l ++ [c.contextAddress]) ∧ s1.listHead = s.listHead := by
  rcases List.eq_nil_or_concat l with hnil | ⟨ini, last, hl⟩
  · exact absurd hnil hne
  · rw [List.concat_eq_append] at hl
    subst hl
    have hfuel := thread_create_fuel cfg hch hfresh h
    obtain ⟨s2, hs2, hhead2, _, _, hch2, _, _⟩ :=
      thread_create_chain cfg fuel c.contextAddress c.stackStart c.stackSize c.entryPoint
        c.arg c.name c.eflags hch (thread_create_current cfg h)
        (thread_create_nonnull cfg h) hfresh hfuel
    have he : s2 = s1 := by
      have hok1 : thread_create cfg fuel c.contextAddress c.stackStart c.stackSize
          c.entryPoint c.arg c.name c.eflags s = .ok s1 := h
      rw [hs2] at hok1
      cases hok1
      rfl
    subst he
    exact ⟨hch2, hhead2⟩

/-- A `thread_exit` that returns has spliced the current record, which was in the chain
behind another record, out of the chain, and logged the two `kfree` calls. -/
theorem thread_exit_chain {s s1 : Kernel} {l : List Addr} {fuel ret_code : Nat}
    (h : IsChain s.mem s.listHead l) (hk : thread_exit fuel ret_code s = .ok s1) :
    ∃ l1 p l2 rk, l = l1 ++ p :: s.currentContext :: l2
      ∧ load s.mem s.currentContext = some rk
      ∧ s1.listHead = s.listHead ∧ s1.currentContext = s.currentContext
      ∧ IsChain s1.mem s1.listHead (l1 ++ p :: l2)
      ∧ (∀ a, (load s1.mem a).map eraseNext = (load s.mem a).map eraseNext)
      ∧ s1.freed = s.freed ++ [rk.esp, s.currentContext] := by
  unfold thread_exit at hk
  cases hf : findPrev s.mem fuel s.listHead s.currentContext with
  | error e => simp [hf] at hk
  | ok p =>
    simp only [hf] at hk
    cases hrk : load s.mem s.currentContext with
    | none => simp [unlink, hrk] at hk
    | some rk =>
      have hk0 : s.currentContext ≠ 0 := ne_zero_of_load hrk
      obtain ⟨l1, l2, hl⟩ := findPrev_found h hk0 hf
      have hnd := isChain_nodup h
      have hpl : p ∈ l := by rw [hl]; simp
      obtain ⟨rp, hrp⟩ := isChain_load h p hpl
      have hpk : s.currentContext ≠ p := by
        intro e
        rw [hl, e] at hnd
        have hnd1 : (p :: p :: l2).Nodup := (List.nodup_append.mp hnd).2.1
        exact (List.nodup_cons.mp hnd1).1 (List.mem_cons_self _ _)
      simp only [unlink, hrk, hrp, load_write_other _ _ _ _ hpk] at hk
      simp only [Except.ok.injEq] at hk
      subst hk
      refine ⟨l1, p, l2, rk, hl, rfl, rfl, rfl, ?_, ?_, rfl⟩
      · exact isChain_remove (hl ▸ h) hrp hrk
      · intro a
        simp only
        by_cases hap : a = p
        · subst hap
          rw [load_write_same _ _ _ (ne_zero_of_load hrp), hrp]
          simp [eraseNext]
        · rw [load_write_other _ _ _ _ hap]

/-- A tick that returns keeps the chain and the head, wherever the current pointer points. -/
theorem thread_schedule_chain (cfg : Config) {s s1 : Kernel} {l : List Addr}
    {fuel now : Nat} {regs : registers_t} {sw : Option Addr}
    (hch : IsChain s.mem s.listHead l)
    (h : thread_schedule cfg fuel regs now s = .ok (s1, sw)) :
    IsChain s1.mem s1.listHead l ∧ s1.listHead = s.listHead := by
  cases hq : thread_fair_schedule fuel s with
  | error e => simp [thread_schedule, hq] at h
  | ok q =>
    by_cases hpos : 0 < q
    · cases hrc : load s.mem s.currentContext with
      | none => simp [thread_schedule, hq, hpos, hrc] at h
      | some rc =>
        by_cases hun : rc.next_switch = 0
        · rw [thread_schedule_unarmed cfg fuel regs now hq hpos hrc hun] at h
          simp only [Except.ok.injEq, Prod.mk.injEq] at h
          obtain ⟨h1, _⟩ := h
          subst h1
          exact ⟨isChain_write_same_next hch hrc rfl, rfl⟩
        · by_cases hdue : rc.next_switch ≤ now
          · rw [thread_schedule_due cfg fuel regs now hq hpos hrc hun hdue] at h
            simp only [Except.ok.injEq, Prod.mk.injEq] at h
            obtain ⟨h1, _⟩ := h
            subst h1
            refine ⟨?_, rfl⟩
            exact isChain_write_same_next (isChain_write_same_next hch hrc rfl)
              (load_write_same _ _ _ (ne_zero_of_load hrc))
              (by rw [saveInto_next])
          · simp only [thread_schedule, hq, hpos, gt_iff_lt, if_true, hrc, hun, if_false,
              hdue, Except.ok.injEq, Prod.mk.injEq] at h
            obtain ⟨h1, _⟩ := h
            subst h1
            exact ⟨hch, rfl⟩
    · simp only [thread_schedule, hq, hpos, gt_iff_lt, if_false, Except.ok.injEq,
        Prod.mk.injEq] at h
      obtain ⟨h1, _⟩ := h
      subst h1
      exact ⟨hch, rfl⟩

theorem thread_set_priority_chain {s s1 : Kernel} {l : List Addr} {priority : Int}
    (hch : IsChain s.mem s.listHead l) (h : thread_set_priority priority s = .ok s1) :
    IsChain s1.mem s1.listHead l ∧ s1.listHead = s.listHead := by
  cases hrc : load s.mem s.currentContext with
  | none => simp [thread_set_priority, hrc] at h
  | some rc =>
    simp only [thread_set_priority, hrc, Except.ok.injEq] at h
    subst h
    exact ⟨isChain_write_same_next hch hrc rfl, rfl⟩

/-- In every reachable state the head is the base address and the chain starts with it. -/
theorem reachable_chain (cfg : Config) {base : Addr} {s : Kernel}
    (h : Reachable cfg base s) :
    s.listHead = base ∧ ∃ l, IsChain s.mem s.listHead l ∧ l ≠ [] := by
  induction h with
  | init s0 s hinit =>
    have hb0 : base ≠ 0 := by
      intro h0
      simp [thread_init, h0] at hinit
    obtain ⟨s1, hs1, hhead, _, _, hch, _, _⟩ := thread_init_chain cfg base s0 hb0
    rw [hinit] at hs1
    cases hs1
    exact ⟨hhead, [base], hch, by simp⟩
  | create s s1 fuel c _ hfresh hok ih =>
    obtain ⟨hb, l, hch, hne⟩ := ih
    obtain ⟨hch1, hhead1⟩ := create_chain cfg hch hne (hfresh l hch) hok
    exact ⟨by rw [hhead1, hb], _, hch1, by simp⟩
  | exit s s1 fuel ret_code _ hok ih =>
    obtain ⟨hb, l, hch, _⟩ := ih
    obtain ⟨l1, p, l2, rk, _, _, hhead1, _, hch1, _, _⟩ := thread_exit_chain hch hok
    exact ⟨by rw [hhead1, hb], _, hch1, by simp⟩
  | kill s s1 fuel pid status _ hok ih =>
    obtain ⟨hb, l, hch, hne⟩ := ih
    rcases thread_kill_status hok with h0 | ⟨_, hs⟩
    · subst h0
      obtain ⟨l1, p, k, l2, rk, _, _, _, _, _, hhead1, _, hch1, _, _⟩ :=
        thread_kill_chain hch hok
      exact ⟨by rw [hhead1, hb], _, hch1, by simp⟩
    · subst hs
      exact ⟨hb, l, hch, hne⟩
  | setPriority s s1 priority _ hok ih =>
    obtain ⟨hb, l, hch, hne⟩ := ih
    obtain ⟨hch1, hhead1⟩ := thread_set_priority_chain hch hok
    exact ⟨by rw [hhead1, hb], l, hch1, hne⟩
  | schedule s s1 fuel regs now sw _ hok ih =>
    obtain ⟨hb, l, hch, hne⟩ := ih
    obtain ⟨hch1, hhead1⟩ := thread_schedule_chain cfg hch hok
    exact ⟨by rw [hhead1, hb], l, hch1, hne⟩

/-- On a chain, a `thread_kill` for the pid of the head record never returns: the search
finds the head at once and the predecessor walk runs off the end of the chain. -/
theorem thread_kill_head_pid {s s1 : Kernel} {l : List Addr} {fuel status : Nat}
    (hch : IsChain s.mem s.listHead l) (hne : l ≠ []) :
    thread_kill fuel (pidAt s.mem s.listHead) s ≠ .ok (status, s1) := by
  intro hk
  have hmem := isChain_head_mem hch hne
  obtain ⟨r, hr⟩ := isChain_load hch _ hmem
  rcases thread_kill_status hk with h0 | ⟨_, _⟩
  · subst h0
    obtain ⟨l1, p, k, l2, rk, hl, _, _, _, hbefore, _, _, _, _, _⟩ := thread_kill_chain hch hk
    have hhead : s.listHead ∈ l1 ++ [p] := by
      subst hl
      cases l1 with
      | nil =>
        have : s.listHead = p := hch.1
        simp [this]
      | cons y ys =>
        have h1 : IsSeg s.mem s.listHead (y :: (ys ++ p :: k :: l2)) 0 := hch
        have : s.listHead = y := h1.1
        simp [this]
    exact hbefore _ hhead rfl
  · cases fuel with
    | zero => simp [thread_kill, killSearch] at hk
    | succ f =>
      have hs : killSearch s.mem (f + 1) s.listHead (pidAt s.mem s.listHead)
          = .ok (some s.listHead) := by
        simp [killSearch, hr, pidAt_of_load hr]
      simp only [thread_kill, hs] at hk
      split at hk
      · cases hk
      · split at hk
        · cases hk
        · simp only [Except.ok.injEq, Prod.mk.injEq] at hk
          omega

/-- On a chain, a `thread_exit` called while the head record is current never returns. -/
theorem thread_exit_head {s s1 : Kernel} {l : List Addr} {fuel ret_code : Nat}
    (hch : IsChain s.mem s.listHead l) (hcur : s.currentContext = s.listHead) :
    thread_exit fuel ret_code s ≠ .ok s1 := by
  intro hk
  obtain ⟨l1, p, l2, rk, hl, _, _, _, _, _, _⟩ := thread_exit_chain hch hk
  have hnd := isChain_nodup hch
  subst hl
  cases l1 with
  | nil =>
    have h1 : s.listHead = p := hch.1
    rw [hcur, h1] at hnd
    have hnd1 : (p :: p :: l2).Nodup := hnd
    exact (List.nodup_cons.mp hnd1).1 (List.mem_cons_self _ _)
  | cons y ys =>
    have h2 : IsSeg s.mem s.listHead (y :: (ys ++ p :: s.currentContext :: l2)) 0 := hch
    have h1 : s.listHead = y := h2.1
    rw [hcur, h1] at hnd
    have hnd1 : (y :: (ys ++ p :: y :: l2)).Nodup := hnd
    exact (List.nodup_cons.mp hnd1).1 (by simp)

/-! ## Saving the snapshot -/

theorem land_three (x : Nat) : x &&& 3 = x % 4 :=
  Nat.and_pow_two_sub_one_eq_mod x 2

/-! ## `thread_show_info` on a chain -/

/-- The loop of `thread_show_info`, entered with `run = 1` at a record that has a successor,
prints the remaining records in chain order and ends with `threads` raised by their number. -/
theorem showLoop_chain {mem : Addr → Option ThreadContext} {ys : List Addr} :
    ∀ {a x y : Addr} (fuel t m : Nat) (out : List InfoLine),
      IsChain mem a (x :: y :: ys) → t + ys.length + 2 < 4294967296 →
      ys.length + 2 ≤ fuel →
      showLoop mem fuel a 1 t m out
        = .ok (out ++ (x :: y :: ys).filterMap (fun b => (load mem b).map infoLine),
               t + ys.length + 2) := by
  induction ys with
  | nil =>
    intro a x y fuel t m out h ht hfuel
    obtain ⟨hx, rx, hrx, hrest⟩ := h
    obtain ⟨hy, ry, hry, hend⟩ := hrest
    have hend0 : ry.next = 0 := hend
    subst hx
    match fuel, hfuel with
    | f + 2, _ =>
      have hry1 : load mem rx.next = some ry := by rw [hy]; exact hry
      have h1 : wrap32 (t + 1) = t + 1 := wrap32_of_lt (by simp at ht; omega)
      have h2 : wrap32 (t + 1 + 1) = t + 1 + 1 := wrap32_of_lt (by simp at ht; omega)
      simp [showLoop, hrx, hry1, hend0, h1, h2, hry]
  | cons z zs ih =>
    intro a x y fuel t m out h ht hfuel
    obtain ⟨hx, rx, hrx, hrest⟩ := h
    have hrest1 := hrest
    obtain ⟨hy, ry, hry, hrest2⟩ := hrest
    subst hx
    have hz : ry.next ≠ 0 := by
      obtain ⟨e, rz, hrz, _⟩ := hrest2
      rw [e]
      exact ne_zero_of_load hrz
    match fuel, hfuel with
    | f + 1, hfuel =>
      have hry1 : load mem rx.next = some ry := by rw [hy]; exact hry
      have h1 : wrap32 (t + 1) = t + 1 :=
        wrap32_of_lt (by simp only [List.length_cons] at ht; omega)
      have hrec := ih f (t + 1) m (out ++ [infoLine rx]) hrest1
        (by simp only [List.length_cons] at ht ⊢; omega)
        (by simp only [List.length_cons] at hfuel ⊢; omega)
      have hfm : List.filterMap (fun b => (load mem b).map infoLine) (a :: y :: z :: zs)
          = infoLine rx
            :: List.filterMap (fun b => (load mem b).map infoLine) (y :: z :: zs) := by
        rw [List.filterMap_cons_some]
        rw [hrx]
        rfl
      simp only [showLoop, hrx, hry1, hz, h1, one_ne_zero, false_and, if_false]
      rw [hy] at hrec ⊢
      rw [hrec, hfm]
      simp only [List.length_cons, List.append_assoc, List.singleton_append]
      congr 2
      omega

/-- On a chain of two or more records `thread_show_info` prints one line per record, in
chain order, and the total it reports is the number of records. -/
theorem thread_show_info_chain {s : Kernel} {l : List Addr} (fuel : Nat)
    (h : IsChain s.mem s.listHead l) (h2 : 2 ≤ l.length) (hlen : l.length < 4294967296)
    (hfuel : l.length ≤ fuel) :
    thread_show_info fuel s
      = .ok (l.filterMap (fun b => (load s.mem b).map infoLine), l.length) := by
  match l, h, h2, hlen, hfuel with
  | x :: y :: ys, h, _, hlen, hfuel =>
    have := showLoop_chain fuel 0 0 [] h
      (by simp only [List.length_cons] at hlen; omega)
      (by simp only [List.length_cons] at hfuel; omega)
    simp only [thread_show_info, this, List.nil_append, List.length_cons]
    congr 2
    omega

/-! ## The stack image -/

/-- A word read depends on its address modulo `2^32` only. -/
theorem readWord_congr (m : Addr → Nat) {x y : Nat} (h : wrap32 x = wrap32 y) :
    readWord m x = readWord m y := by
  have h1 : wrap32 (x + 1) = wrap32 (y + 1) := by unfold wrap32 at *; omega
  have h2 : wrap32 (x + 2) = wrap32 (y + 2) := by unfold wrap32 at *; omega
  have h3 : wrap32 (x + 3) = wrap32 (y + 3) := by unfold wrap32 at *; omega
  unfold readWord
  rw [h, h1, h2, h3]

theorem byte_addr_ne_same (a j k : Nat) (hj : j < 4) (hk : k < 4) (hjk : j ≠ k) :
    wrap32 (a + j) ≠ wrap32 (a + k) := by
  unfold wrap32
  omega

theorem byte_addr_ne_other (a b j k : Nat) (hj : j < 4) (hk : k < 4)
    (hd : 4 ≤ (b + 4294967296 - a % 4294967296) % 4294967296
      ∧ (b + 4294967296 - a % 4294967296) % 4294967296 ≤ 4294967292) :
    wrap32 (b + j) ≠ wrap32 (a + k) := by
  unfold wrap32
  omega

theorem readWord_writeWord_same (m : Addr → Nat) (a v : Nat) (hv : v < 4294967296) :
    readWord (writeWord m a v) a = v := by
  have h10 : wrap32 (a + 1) ≠ wrap32 a :=
    byte_addr_ne_same a 1 0 (by decide) (by decide) (by decide)
  have h20 : wrap32 (a + 2) ≠ wrap32 a :=
    byte_addr_ne_same a 2 0 (by decide) (by decide) (by decide)
  have h30 : wrap32 (a + 3) ≠ wrap32 a :=
    byte_addr_ne_same a 3 0 (by decide) (by decide) (by decide)
  have h21 : wrap32 (a + 2) ≠ wrap32 (a + 1) :=
    byte_addr_ne_same a 2 1 (by decide) (by decide) (by decide)
  have h31 : wrap32 (a + 3) ≠ wrap32 (a + 1) :=
    byte_addr_ne_same a 3 1 (by decide) (by decide) (by decide)
  have h32 : wrap32 (a + 3) ≠ wrap32 (a + 2) :=
    byte_addr_ne_same a 3 2 (by decide) (by decide) (by decide)
  simp only [readWord, writeWord, if_true, h10, h20, h30, h21, h31, h32, if_false]
  omega

/-- A word store does not change a word whose four bytes lie elsewhere. -/
theorem readWord_writeWord_other (m : Addr → Nat) (a b v : Nat)
    (hd : 4 ≤ (b + 4294967296 - a % 4294967296) % 4294967296
      ∧ (b + 4294967296 - a % 4294967296) % 4294967296 ≤ 4294967292) :
    readWord (writeWord m a v) b = readWord m b := by
  have h := fun j k hj hk => byte_addr_ne_other a b j k hj hk hd
  have h00 : wrap32 b ≠ wrap32 a := h 0 0 (by decide) (by decide)
  have h01 : wrap32 b ≠ wrap32 (a + 1) := h 0 1 (by decide) (by decide)
  have h02 : wrap32 b ≠ wrap32 (a + 2) := h 0 2 (by decide) (by decide)
  have h03 : wrap32 b ≠ wrap32 (a + 3) := h 0 3 (by decide) (by decide)
  have h10 : wrap32 (b + 1) ≠ wrap32 a := h 1 0 (by decide) (by decide)
  have h11 : wrap32 (b + 1) ≠ wrap32 (a + 1) := h 1 1 (by decide) (by decide)
  have h12 : wrap32 (b + 1) ≠ wrap32 (a + 2) := h 1 2 (by decide) (by decide)
  have h13 : wrap32 (b + 1) ≠ wrap32 (a + 3) := h 1 3 (by decide) (by decide)
  have h20 : wrap32 (b + 2) ≠ wrap32 a := h 2 0 (by decide) (by decide)
  have h21 : wrap32 (b + 2) ≠ wrap32 (a + 1) := h 2 1 (by decide) (by decide)
  have h22 : wrap32 (b + 2) ≠ wrap32 (a + 2) := h 2 2 (by decide) (by decide)
  have h23 : wrap32 (b + 2) ≠ wrap32 (a + 3) := h 2 3 (by decide) (by decide)
  have h30 : wrap32 (b + 3) ≠ wrap32 a := h 3 0 (by decide) (by decide)
  have h31 : wrap32 (b + 3) ≠ wrap32 (a + 1) := h 3 1 (by decide) (by decide)
  have h32 : wrap32 (b + 3) ≠ wrap32 (a + 2) := h 3 2 (by decide) (by decide)
  have h33 : wrap32 (b + 3) ≠ wrap32 (a + 3) := h 3 3 (by decide) (by decide)
  simp only [readWord, writeWord, h00, h01, h02, h03, h10, h11, h12, h13, h20, h21, h22,
    h23, h30, h31, h32, h33, if_false]

/-- A word inside a region cleared by `memset` reads as zero. -/
theorem readWord_memsetZero (m : Addr → Nat) (start size x : Nat)
    (hin : (x + 4294967296 - start % 4294967296) % 4294967296 + 4 ≤ size) :
    readWord (memsetZero m start size) x = 0 := by
  have h0 : wrap32 (wrap32 x + (4294967296 - wrap32 start)) < size := by
    unfold wrap32; omega
  have h1 : wrap32 (wrap32 (x + 1) + (4294967296 - wrap32 start)) < size := by
    unfold wrap32; omega
  have h2 : wrap32 (wrap32 (x + 2) + (4294967296 - wrap32 start)) < size := by
    unfold wrap32; omega
  have h3 : wrap32 (wrap32 (x + 3) + (4294967296 - wrap32 start)) < size := by
    unfold wrap32; omega
  simp only [readWord, memsetZero, h0, h1, h2, h3, if_true]

/-- A `thread_create` that returns has built the stack image with `buildStack` and stored
`stackStart + stackSize - 8` (32-bit), `stackStart` and `stackSize` in the new record. -/
theorem thread_create_stack (cfg : Config) {s s1 : Kernel}
    {fuel ctx stackStart stackSize entryPoint arg : Nat} {name : List Nat} {eflags : Nat}
    (hok : thread_create cfg fuel ctx stackStart stackSize entryPoint arg name eflags s
      = .ok s1) :
    s1.stackBytes = buildStack s.stackBytes stackStart stackSize arg
      ∧ ∃ rc, load s1.mem ctx = some rc
        ∧ rc.esp = wrap32 (stackStart + stackSize + 4294967296 - 8)
        ∧ rc.stack_start = stackStart ∧ rc.stack_size = stackSize := by
  have hc0 := thread_create_nonnull cfg hok
  simp only [thread_create, hc0, if_false] at hok
  split at hok
  · cases hok
  · split at hok
    · cases hok
    · split at hok
      · cases hok
      · rename_i last hlast
        split at hok
        · cases hok
        · rename_i r hr
          simp only [Except.ok.injEq] at hok
          subst hok
          refine ⟨rfl, ?_⟩
          by_cases hl : last = ctx
          · subst hl
            rw [load_write_same _ _ _ hc0] at hr
            simp only [Option.some.injEq] at hr
            subst hr
            exact ⟨_, load_write_same _ _ _ hc0, rfl, rfl, rfl⟩
          · exact ⟨_, (load_write_other _ _ _ _ (Ne.symm hl)).trans
              (load_write_same _ _ _ hc0), rfl, rfl, rfl⟩

/-! ## Arming and idle ticks -/

theorem armDeadline_nonneg (q now : Nat) {p : Int} (hp : 0 ≤ p) :
    armDeadline q now p = (.weighted, (now + q * p.toNat) % 4294967296) := by
  unfold armDeadline
  rw [if_pos hp]
  generalize q * p.toNat = x
  unfold wrap32
  congr 1
  omega

/-- A tick on an armed record whose deadline has not passed returns the state as it is. -/
theorem thread_schedule_not_due (cfg : Config) {s : Kernel} {q : Nat} {rc : ThreadContext}
    (fuel : Nat) (regs : registers_t) (now : Nat)
    (hq : thread_fair_schedule fuel s = .ok q)
    (hrc : load s.mem s.currentContext = some rc)
    (harmed : rc.next_switch ≠ 0) (hnot : now < rc.next_switch) :
    thread_schedule cfg fuel regs now s = .ok (s, none) := by
  by_cases hpos : 0 < q
  · simp only [thread_schedule, hq, hpos, gt_iff_lt, if_true, hrc, harmed, if_false,
      Nat.not_le.mpr hnot]
  · simp only [thread_schedule, hq, hpos, gt_iff_lt, if_false]

/-- A tick in a registry that holds the base record alone returns the state as it is. -/
theorem thread_schedule_base_only (cfg : Config) {s : Kernel} {base : Addr}
    (fuel : Nat) (regs : registers_t) (now : Nat)
    (hch : IsChain s.mem s.listHead [base]) (hfuel : 1 ≤ fuel) :
    thread_schedule cfg fuel regs now s = .ok (s, none) := by
  have hq := thread_fair_schedule_chain (n := 0) fuel hch rfl (by norm_num) (by omega)
  rw [if_pos rfl] at hq
  simp only [thread_schedule, hq, gt_iff_lt, lt_self_iff_false, if_false]

/-- With at most 100 created threads and the current record armed and not yet due, a tick
returns the state as it is. -/
theorem thread_schedule_idle (cfg : Config) {s : Kernel} {l : List Addr} {n : Nat}
    {rc : ThreadContext} (fuel : Nat) (regs : registers_t) (now : Nat)
    (hch : IsChain s.mem s.listHead l) (hl : l.length = n + 1) (hn : n ≤ 100)
    (hfuel : n < fuel) (hrc : load s.mem s.currentContext = some rc)
    (harmed : rc.next_switch ≠ 0) (hnot : now < rc.next_switch) :
    thread_schedule cfg fuel regs now s = .ok (s, none) := by
  have hq := thread_fair_schedule_chain fuel hch hl (by omega) hfuel
  by_cases h0 : n = 0
  · rw [if_pos h0] at hq
    exact thread_schedule_not_due cfg fuel regs now hq hrc harmed hnot
  · rw [if_neg h0, if_neg (quantum_pos (by omega) hn).1] at hq
    exact thread_schedule_not_due cfg fuel regs now hq hrc harmed hnot

theorem quantum_bounds {n : Nat} (h1 : 1 ≤ n) (h2 : n ≤ 100) :
    n ≤ 100 / (100 / n) ∧ 100 / (100 / n) ≤ 100 := by
  have hq : 0 < 100 / n := Nat.div_pos h2 (by omega)
  refine ⟨?_, Nat.div_le_self 100 _⟩
  rw [Nat.le_div_iff_mul_le hq]
  rw [Nat.mul_comm]
  exact Nat.div_mul_le_self 100 n

/-! ## Claims -/

/-- C1 (the code departs from it): after `thread_init` and the creation of thread `A`, which
gets pid 1, `thread_kill (1)` returns the failure status 1 and the chain still holds `A`;
the chain before the create was the base record alone. -/
theorem kill_of_newest_thread_is_refused :
    create demoCfg 8 demoArgsA demoInit = .ok demoA
      ∧ chainOf 8 demoInit = some [100]
      ∧ chainOf 8 demoA = some [100, 200]
      ∧ pidAt demoA.mem 200 = 1
      ∧ (thread_kill 8 1 demoA).map Prod.fst = .ok 1
      ∧ (thread_kill 8 1 demoA).map (fun p => chainOf 8 p.2) = .ok (some [100, 200]) := by
  refine ⟨rfl, rfl, rfl, rfl, rfl, rfl⟩

/-- C2: on every chain of `L ≥ 1` records at 32-bit addresses `thread_number_of_threads`
returns `L - 1`; and in every registry built by `thread_init`, creates and successful kills
it returns the number of creates minus the number of successful kills, the chain holding
one record more. -/
theorem count_is_creates_minus_kills (cfg : Config) :
    (∀ (s : Kernel) (l : List Addr) (fuel : Nat), IsChain s.mem s.listHead l →
        1 ≤ l.length → (∀ x ∈ l, x < 4294967296) → l.length ≤ fuel →
        thread_number_of_threads fuel s = .ok (l.length - 1))
    ∧ (∀ (s : Kernel) (creates kills : Nat), Built cfg s creates kills →
        kills ≤ creates ∧ ∃ l, IsChain s.mem s.listHead l ∧ l.length = creates - kills + 1
          ∧ ∀ fuel, l.length ≤ fuel →
              thread_number_of_threads fuel s = .ok (creates - kills)) := by
  have hchain : ∀ (s : Kernel) (l : List Addr) (fuel : Nat), IsChain s.mem s.listHead l →
      1 ≤ l.length → (∀ x ∈ l, x < 4294967296) → l.length ≤ fuel →
      thread_number_of_threads fuel s = .ok (l.length - 1) := by
    intro s l fuel h h1 hb h3
    have h2 : l.length ≤ 4294967296 := nodup_length_le (isChain_nodup h) hb
    have hne : l ≠ [] := by
      intro e
      rw [e] at h1
      simp at h1
    rw [thread_number_of_threads_chain fuel h hne, if_pos (by omega),
      wrap32_of_lt (by omega)]
  refine ⟨hchain, ?_⟩
  intro s creates kills hb
  obtain ⟨l, hch, hne, hlen, _, hbound⟩ := built_chain cfg hb
  have hpos : 1 ≤ l.length := by
    cases l with
    | nil => exact absurd rfl hne
    | cons x xs => simp
  refine ⟨by omega, l, hch, by omega, ?_⟩
  intro fuel hfuel
  rw [hchain s l fuel hch hpos hbound hfuel]
  congr 1
  omega

/-- C2 at the example registries: with base, `A` and `B` in the chain the count is 2; after
two creates and the successful `thread_kill (1)` it is 1. -/
theorem count_is_creates_minus_kills_witness :
    thread_number_of_threads 8 demoAB = .ok ([100, 200, 300].length - 1)
      ∧ (1 ≤ 2 ∧ ∃ l, IsChain demoABkill1.mem demoABkill1.listHead l ∧ l.length = 2 - 1 + 1
          ∧ ∀ fuel, l.length ≤ fuel →
              thread_number_of_threads fuel demoABkill1 = .ok (2 - 1)) :=
  ⟨(count_is_creates_minus_kills demoCfg).1 demoAB [100, 200, 300] 8
      (@isChain_of_chainFrom _ 8 _ _ rfl) (by decide) (by decide) (by decide),
    (count_is_creates_minus_kills demoCfg).2 demoABkill1 2 1
      (Built.kill demoAB demoABkill1 2 0 8 1
        (Built.create demoA demoAB 1 0 8 demoArgsB
          (Built.create demoInit demoA 0 0 8 demoArgsA
            (Built.init boot demoInit 100 (by decide) rfl) (by decide)
            (fun l hl => by
              rw [isChain_unique hl (@isChain_of_chainFrom _ 8 _ [100] rfl)]
              decide)
            rfl)
          (by decide)
          (fun l hl => by
            rw [isChain_unique hl (@isChain_of_chainFrom _ 8 _ [100, 200] rfl)]
            decide)
          rfl)
        rfl)⟩

/-- C3: whenever `thread_kill (pid)` returns 0 on a chain, the chain afterwards is the
original one without its first record carrying `pid`; that record is not the head, the
head and the order of the other records are unchanged, and every record keeps all its
fields apart from the link. -/
theorem kill_removes_first_match (s s1 : Kernel) (l : List Addr) (fuel pid : Nat)
    (h : IsChain s.mem s.listHead l) (hk : thread_kill fuel pid s = .ok (0, s1)) :
    ∃ l1 k l2, l = l1 ++ k :: l2 ∧ l1 ≠ [] ∧ pidAt s.mem k = pid
      ∧ (∀ y ∈ l1, pidAt s.mem y ≠ pid)
      ∧ s1.listHead = s.listHead
      ∧ IsChain s1.mem s1.listHead (l1 ++ l2)
      ∧ ∀ a, (load s1.mem a).map eraseNext = (load s.mem a).map eraseNext := by
  obtain ⟨l1, p, k, l2, rk, hl, _, hrk, hpid, hbefore, hhead, _, hch, hrec, _⟩ :=
    thread_kill_chain h hk
  refine ⟨l1 ++ [p], k, l2, by rw [hl]; simp, by simp, ?_, hbefore, hhead, ?_, hrec⟩
  · rw [pidAt_of_load hrk, hpid]
  · simpa using hch

/-- C3 at the registry holding the base record, `A` (pid 1) and `B` (pid 2): `thread_kill (1)`
returns 0 and `B` becomes the direct successor of the head. -/
theorem kill_removes_first_match_witness :
    chainOf 8 demoAB = some [100, 200, 300] ∧ chainOf 8 demoABkill1 = some [100, 300]
      ∧ ∃ l1 k l2, [100, 200, 300] = l1 ++ k :: l2 ∧ l1 ≠ [] ∧ pidAt demoAB.mem k = 1
        ∧ (∀ y ∈ l1, pidAt demoAB.mem y ≠ 1)
        ∧ demoABkill1.listHead = demoAB.listHead
        ∧ IsChain demoABkill1.mem demoABkill1.listHead (l1 ++ l2)
        ∧ ∀ a, (load demoABkill1.mem a).map eraseNext = (load demoAB.mem a).map eraseNext :=
  ⟨rfl, rfl, kill_removes_first_match demoAB demoABkill1 [100, 200, 300] 8 1
    (@isChain_of_chainFrom _ 8 _ _ rfl) rfl⟩

/-- C4 (the code departs from it): in the registry right after `thread_init`, which holds the
base record (pid 0) alone, `thread_kill (5)` for the absent pid 5 does not return the status
1: its loop sets `search = search->next`, which is `NULL`, and then reads `search->next`. -/
theorem kill_of_absent_pid_reads_through_null :
    chainOf 8 demoInit = some [100]
      ∧ pidAt demoInit.mem 100 = 0
      ∧ (load demoInit.mem 100).map (fun r => r.next) = some 0
      ∧ ∀ fuel, thread_kill (fuel + 1) 5 demoInit = .error .badAccess :=
  ⟨rfl, rfl, rfl, fun _ => rfl⟩

/-- C5: `thread_init` followed by `k` creates on distinct, non-null 32-bit context addresses
returns (given fuel for the longest walk) with the chain base, then the created records in
creation order; the pids along the chain are `0, 1, ..., k`. -/
theorem creates_append_in_order (cfg : Config) (s0 : Kernel) (base : Addr)
    (cs : List CreateArgs) (fuel : Nat)
    (hnd : (base :: cs.map (fun c => c.contextAddress)).Nodup)
    (hnz : ∀ a ∈ base :: cs.map (fun c => c.contextAddress), a ≠ 0 ∧ a < 4294967296)
    (hfuel : cs.length ≤ fuel) :
    ∃ s, initThenCreate cfg fuel base cs s0 = .ok s
      ∧ s.listHead = base
      ∧ IsChain s.mem s.listHead (base :: cs.map (fun c => c.contextAddress))
      ∧ (base :: cs.map (fun c => c.contextAddress)).map (pidAt s.mem)
          = List.range (cs.length + 1) := by
  have hb : base ≠ 0 := (hnz base (List.mem_cons_self _ _)).1
  have hlen : cs.length + 1 ≤ 4294967296 := by
    have := nodup_length_le hnd (fun x hx => (hnz x hx).2)
    simpa using this
  obtain ⟨s, hs, hhead, hcur, _, hch, hpid0, _⟩ := thread_init_chain cfg base s0 hb
  obtain ⟨s1, hs1, hhead1, _, _, hch1, hrec1, hpids1⟩ :=
    createAll_chain cfg fuel cs s [] base (by simpa using hch) (by simp [hcur])
      (fun c hc => (hnz c.contextAddress
        (List.mem_cons_of_mem _ (List.mem_map_of_mem _ hc))).1)
      (by simpa using hnd) (by simpa using hfuel) (by simp; omega)
  refine ⟨s1, ?_, by rw [hhead1, hhead], ?_, ?_⟩
  · simp only [initThenCreate, hs, hs1]
  · rw [hhead1, hhead] at hch1
    rw [hhead1, hhead]
    simpa using hch1
  · have h0 : pidAt s1.mem base = 0 := by
      rw [hrec1 base (by simp), hpid0]
    simp only [List.map_cons, List.map_map, h0]
    have hmap : List.map (pidAt s1.mem ∘ fun c => c.contextAddress) cs
        = List.range' 1 cs.length := by
      simpa [Function.comp] using hpids1
    rw [hmap, List.range_eq_range', List.range'_succ]

/-- C5 at the example registry: after `thread_init (100)` and the creation of `A` and `B` the
chain is base, `A`, `B` with pids 0, 1, 2. -/
theorem creates_append_in_order_witness :
    ∃ s, initThenCreate demoCfg 8 100 [demoArgsA, demoArgsB] boot = .ok s
      ∧ s.listHead = 100
      ∧ IsChain s.mem s.listHead
          (100 :: [demoArgsA, demoArgsB].map (fun c => c.contextAddress))
      ∧ (100 :: [demoArgsA, demoArgsB].map (fun c => c.contextAddress)).map (pidAt s.mem)
          = List.range ([demoArgsA, demoArgsB].length + 1) :=
  creates_append_in_order demoCfg boot 100 [demoArgsA, demoArgsB] 8 (by decide) (by decide)
    (by decide)

/-- C6: in a registry of the base record and `N` created records, `1 ≤ N ≤ 100`, with the
base record current and every record armed with a deadline that has passed, `N + 1` ticks
at later times all switch: the first `N` make the created records current in creation
order, each once (they are distinct), and the last one wraps to the head. -/
theorem round_robin_in_creation_order (cfg : Config) (s : Kernel) (base : Addr)
    (created : List Addr) (now fuel : Nat) (ticks : List (registers_t × Nat))
    (hch : IsChain s.mem s.listHead (base :: created))
    (hN1 : 1 ≤ created.length) (hN : created.length ≤ 100)
    (hcur : s.currentContext = base)
    (harmed : ∀ a ∈ base :: created,
      ∃ r, load s.mem a = some r ∧ r.next_switch ≠ 0 ∧ r.next_switch ≤ now)
    (hticks : ticks.length = created.length + 1) (htime : ∀ t ∈ ticks, now ≤ t.2)
    (hfuel : created.length < fuel) :
    ∃ s1, scheduleAll cfg fuel ticks s
        = .ok (s1, created.map (fun a => (some a, a)) ++ [(some base, base)])
      ∧ s1.currentContext = base ∧ s1.listHead = base
      ∧ IsChain s1.mem s1.listHead (base :: created)
      ∧ created.Nodup ∧ base ∉ created := by
  have hhead : s.listHead = base := hch.1
  have hnd := isChain_nodup hch
  obtain ⟨s1, hs1, hcur1, hhead1, hch1, _⟩ :=
    scheduleAll_round cfg fuel now created.length created s [] base ticks hch (by simp)
      hN1 hN hfuel hcur harmed hticks htime
  rw [hhead] at hs1 hcur1 hhead1
  exact ⟨s1, hs1, hcur1, hhead1, hch1, (List.nodup_cons.mp hnd).2, (List.nodup_cons.mp hnd).1⟩

/-- C6 at the example registry with `A` and `B`, every record armed with the deadline 1:
three ticks at the times 5, 6, 7 switch to `A`, to `B` and back to the base record. -/
theorem round_robin_in_creation_order_witness :
    ∃ s1, scheduleAll demoCfg 8 [(demoRegs, 5), (demoRegs, 6), (demoRegs, 7)] demoArmed
        = .ok (s1, [200, 300].map (fun a => (some a, a)) ++ [(some 100, 100)])
      ∧ s1.currentContext = 100 ∧ s1.listHead = 100
      ∧ IsChain s1.mem s1.listHead (100 :: [200, 300])
      ∧ [200, 300].Nodup ∧ 100 ∉ [200, 300] :=
  round_robin_in_creation_order demoCfg demoArmed 100 [200, 300] 5 8
    [(demoRegs, 5), (demoRegs, 6), (demoRegs, 7)]
    (@isChain_of_chainFrom _ 8 _ _ rfl) (by decide) (by decide) rfl
    (by
      intro a ha
      simp only [List.mem_cons, List.mem_singleton, List.not_mem_nil, or_false] at ha
      rcases ha with rfl | rfl | rfl
      · exact ⟨_, rfl, by decide, by decide⟩
      · exact ⟨_, rfl, by decide, by decide⟩
      · exact ⟨_, rfl, by decide, by decide⟩)
    rfl (by decide) (by decide)

/-- C7 (as stated it fails): with one created thread the quantum is 1, with two created
threads it is 2, so the quantum grew with the thread count. -/
theorem quantum_grows_from_one_to_two_threads :
    chainOf 8 demoA = some [100, 200] ∧ chainOf 8 demoAB = some [100, 200, 300]
      ∧ thread_fair_schedule 8 demoA = .ok 1 ∧ thread_fair_schedule 8 demoAB = .ok 2
      ∧ ¬ (2 ≤ 1) :=
  ⟨rfl, rfl, rfl, rfl, by decide⟩

/-- C7 (amended): for thread counts `0 < n ≤ m ≤ 100` the quantum `thread_fair_schedule`
computes for a registry with `m` created threads is greater than or equal to the one it
computes for a registry with `n` created threads; both are `100 / (100 / count)`. -/
theorem quantum_never_decreases (s1 s2 : Kernel) (l1 l2 : List Addr) (n m fuel : Nat)
    (h1 : IsChain s1.mem s1.listHead l1) (h2 : IsChain s2.mem s2.listHead l2)
    (hl1 : l1.length = n + 1) (hl2 : l2.length = m + 1)
    (hn : 0 < n) (hnm : n ≤ m) (hm : m ≤ 100) (hfuel : m < fuel) :
    thread_fair_schedule fuel s1 = .ok (100 / (100 / n))
      ∧ thread_fair_schedule fuel s2 = .ok (100 / (100 / m))
      ∧ 100 / (100 / n) ≤ 100 / (100 / m) := by
  have hn1 : 1 ≤ n := hn
  have hm1 : 1 ≤ m := by omega
  refine ⟨?_, ?_, quantum_mono hn1 hnm hm⟩
  · rw [thread_fair_schedule_chain fuel h1 hl1 (by omega) (by omega),
      if_neg (by omega), if_neg (quantum_pos hn1 (by omega)).1]
  · rw [thread_fair_schedule_chain fuel h2 hl2 (by omega) (by omega),
      if_neg (by omega), if_neg (quantum_pos hm1 hm).1]

/-- C7 (amended) at the example registries with one and two created threads. -/
theorem quantum_never_decreases_witness :
    thread_fair_schedule 8 demoA = .ok (100 / (100 / 1))
      ∧ thread_fair_schedule 8 demoAB = .ok (100 / (100 / 2))
      ∧ 100 / (100 / 1) ≤ 100 / (100 / 2) :=
  quantum_never_decreases demoA demoAB [100, 200] [100, 200, 300] 1 2 8
    (@isChain_of_chainFrom _ 8 _ _ rfl) (@isChain_of_chainFrom _ 8 _ _ rfl) rfl rfl
    (by decide) (by decide) (by decide) (by decide)

/-- C8 (as stated it fails): with 101 created threads and an unarmed current record of
priority -1 the tick does not arm anything, `thread_fair_schedule` divides by zero; and with
one created thread a tick at the last 32-bit time stores `t + 1` wrapped to 0, which leaves
the record unarmed. -/
theorem urgent_tick_fails_on_crowd_and_on_wrap :
    thread_number_of_threads 102 crowdedUrgent = .ok 101
      ∧ (load crowdedUrgent.mem crowdedUrgent.currentContext).map
          (fun r => (r.priority, r.next_switch)) = some (-1, 0)
      ∧ thread_schedule demoCfg 102 demoRegs 5 crowdedUrgent = .error .divByZero
      ∧ thread_number_of_threads 8 demoAUrgent = .ok 1
      ∧ (load demoAUrgent.mem demoAUrgent.currentContext).map
          (fun r => (r.priority, r.next_switch)) = some (-1, 0)
      ∧ (thread_schedule demoCfg 8 demoRegs 4294967295 demoAUrgent).map
          (fun p => (p.2, (load p.1.mem p.1.currentContext).map (fun r => r.next_switch)))
          = .ok (none, some 0) := by
  set_option maxRecDepth 1000000 in
  exact ⟨rfl, rfl, rfl, rfl, rfl, rfl⟩

/-- C8 (amended): in a registry with between 1 and 100 created threads whose current record
has priority `< 0` and is unarmed, a tick at a time `t` with `t + 1 < 2^32` stores
`next_switch = t + 1` and does not switch; the next tick, at any time `≥ t + 1`, disarms the
record and switches to its successor, or to the head when it has none, which is another
record whenever the current record is in the chain. -/
theorem urgent_record_preempted_after_one_tick (cfg : Config) (s : Kernel) (l : List Addr)
    (n fuel t t1 : Nat) (regs regs1 : registers_t) (rc : ThreadContext)
    (hch : IsChain s.mem s.listHead l) (hl : l.length = n + 1) (hn1 : 1 ≤ n) (hn : n ≤ 100)
    (hfuel : n < fuel) (hrc : load s.mem s.currentContext = some rc)
    (hprio : rc.priority < 0) (hun : rc.next_switch = 0)
    (ht : t + 1 < 4294967296) (ht1 : t + 1 ≤ t1) :
    ∃ s1 s2 r1 r2, thread_schedule cfg fuel regs t s = .ok (s1, none)
      ∧ s1.currentContext = s.currentContext
      ∧ load s1.mem s.currentContext = some r1 ∧ r1.next_switch = t + 1
      ∧ thread_schedule cfg fuel regs1 t1 s1 = .ok (s2, some s2.currentContext)
      ∧ s2.currentContext = (if rc.next = 0 then s.listHead else rc.next)
      ∧ load s2.mem s.currentContext = some r2 ∧ r2.next_switch = 0
      ∧ (s.currentContext ∈ l →
          s2.currentContext ∈ l ∧ s2.currentContext ≠ s.currentContext) := by
  have hc0 := ne_zero_of_load hrc
  have hq := thread_fair_schedule_chain fuel hch hl (by omega) hfuel
  rw [if_neg (by omega), if_neg (quantum_pos hn1 hn).1] at hq
  have hpos := (quantum_pos hn1 hn).2
  have hstep1 := thread_schedule_unarmed cfg fuel regs t hq hpos hrc hun
  rw [armDeadline_neg _ _ hprio, wrap32_of_lt ht] at hstep1
  have hch1 : IsChain (write s.mem s.currentContext { rc with next_switch := t + 1 })
      s.listHead l := isChain_write_same_next hch hrc rfl
  have hq1 : thread_fair_schedule fuel
      { s with mem := write s.mem s.currentContext { rc with next_switch := t + 1 } }
        = .ok (100 / (100 / n)) := by
    have := thread_fair_schedule_chain
      (s := { s with mem := write s.mem s.currentContext { rc with next_switch := t + 1 } })
      fuel hch1 hl (by omega) hfuel
    rw [if_neg (by omega), if_neg (quantum_pos hn1 hn).1] at this
    exact this
  have hrc1 : load (write s.mem s.currentContext { rc with next_switch := t + 1 })
      s.currentContext = some { rc with next_switch := t + 1 } :=
    load_write_same _ _ _ hc0
  have hstep2 := thread_schedule_due cfg fuel regs1 t1 hq1 hpos hrc1
    (by show t + 1 ≠ 0; omega) (by show t + 1 ≤ t1; exact ht1)
  refine ⟨_, _, _, _, hstep1, rfl, load_write_same _ _ _ hc0, rfl, hstep2, rfl,
    load_write_same _ _ _ hc0, ?_, ?_⟩
  · rw [saveInto_next_switch]
  · intro hmem
    have := chain_next_mem hch hmem hrc
    exact ⟨this.1, this.2 (by omega)⟩

/-- C8 (amended) at the example registry with thread `A`, after the base record has set its
priority to -1: a tick at time 5 arms it with 6, a tick at time 6 switches to `A`. -/
theorem urgent_record_preempted_after_one_tick_witness :
    ∃ s1 s2 r1 r2, thread_schedule demoCfg 8 demoRegs 5 demoAUrgent = .ok (s1, none)
      ∧ s1.currentContext = demoAUrgent.currentContext
      ∧ load s1.mem demoAUrgent.currentContext = some r1 ∧ r1.next_switch = 5 + 1
      ∧ thread_schedule demoCfg 8 demoRegs 6 s1 = .ok (s2, some s2.currentContext)
      ∧ s2.currentContext
          = (if ({ zeroContext demoCfg with priority := -1, next := 200 } : ThreadContext).next
              = 0 then demoAUrgent.listHead
             else ({ zeroContext demoCfg with priority := -1, next := 200 }
               : ThreadContext).next)
      ∧ load s2.mem demoAUrgent.currentContext = some r2 ∧ r2.next_switch = 0
      ∧ (demoAUrgent.currentContext ∈ [100, 200] →
          s2.currentContext ∈ [100, 200]
            ∧ s2.currentContext ≠ demoAUrgent.currentContext) :=
  urgent_record_preempted_after_one_tick demoCfg demoAUrgent [100, 200] 1 8 5 6 demoRegs
    demoRegs { zeroContext demoCfg with priority := -1, next := 200 }
    (@isChain_of_chainFrom _ 8 _ _ rfl) rfl (by decide) (by decide) (by decide) rfl
    (by decide) rfl (by decide) (by decide)

/-- C9 (the code departs from it): in the registry right after `thread_init`, where the base
record is alone and current, `thread_exit` does not complete: its loop leaves the base
record through its `NULL` link and reads `search->next` there. -/
theorem exit_from_base_reads_through_null :
    chainOf 8 demoInit = some [100]
      ∧ demoInit.listHead = 100 ∧ demoInit.currentContext = 100
      ∧ (load demoInit.mem 100).map (fun r => r.next) = some 0
      ∧ ∀ fuel, thread_exit (fuel + 2) 0 demoInit = .error .badAccess :=
  ⟨rfl, rfl, rfl, rfl, fun _ => rfl⟩

/-- C10 (as stated it fails): after `thread_init`, the creation of `A` and `B` and two ticks
that make `A` current, `thread_exit` unlinks `A` and leaves `currentContext` pointing at it;
so does `thread_kill (1)`.  In both cases the chain is base, `B` and the current record is
`A`. -/
theorem current_leaves_chain_on_exit_and_kill :
    thread_schedule demoCfg 8 demoRegs 1 demoAB = .ok (demoTick1, none)
      ∧ thread_schedule demoCfg 8 demoRegs 2 demoTick1 = .ok (demoTick2, some 200)
      ∧ chainOf 8 demoTick2 = some [100, 200, 300] ∧ demoTick2.currentContext = 200
      ∧ thread_exit 8 0 demoTick2 = .ok demoExit
      ∧ chainOf 8 demoExit = some [100, 300] ∧ demoExit.currentContext = 200
      ∧ (thread_kill 8 1 demoTick2).map (fun p => (p.1, chainOf 8 p.2, p.2.currentContext))
          = .ok (0, some [100, 300], 200)
      ∧ 200 ∉ [100, 300] :=
  ⟨rfl, rfl, rfl, rfl, rfl, rfl, rfl, rfl, by decide⟩

/-- C10 (amended): in every state reachable from `thread_init` by creates on context memory
outside the chain, `thread_set_priority`, scheduler ticks and `thread_kill` calls that fail
or are for a pid other than that of the current record, the current record is a member of
the chain that starts at the head. -/
theorem current_in_chain (cfg : Config) (s : Kernel) (h : ReachKeepingCurrent cfg s) :
    ∃ l, IsChain s.mem s.listHead l ∧ s.currentContext ∈ l := by
  induction h with
  | init s0 s base hinit =>
    have hb0 : base ≠ 0 := by
      intro h0
      simp [thread_init, h0] at hinit
    obtain ⟨s1, hs1, hhead, hcur, _, hch, _, _⟩ := thread_init_chain cfg base s0 hb0
    rw [hinit] at hs1
    cases hs1
    exact ⟨[base], hch, by rw [hcur]; simp⟩
  | create s s1 fuel c _ hfresh hok ih =>
    obtain ⟨l, hch, hcur⟩ := ih
    obtain ⟨hch1, hcur1⟩ := create_keeps cfg hch hcur (hfresh l hch) hok
    exact ⟨_, hch1, List.mem_append_left _ hcur1⟩
  | kill s s1 fuel pid status _ hpid hok ih =>
    obtain ⟨l, hch, hcur⟩ := ih
    exact thread_kill_keeps hch hcur hpid hok
  | setPriority s s1 priority _ hok ih =>
    obtain ⟨l, hch, hcur⟩ := ih
    exact ⟨l, thread_set_priority_keeps hch hcur hok⟩
  | schedule s s1 fuel regs now sw _ hok ih =>
    obtain ⟨l, hch, hcur⟩ := ih
    exact ⟨l, thread_schedule_keeps cfg hch hcur hok⟩

/-- C10 (amended) at the example registry after two creates and two ticks, where `A` is
current. -/
theorem current_in_chain_witness :
    demoTick2.currentContext = 200
      ∧ ∃ l, IsChain demoTick2.mem demoTick2.listHead l ∧ demoTick2.currentContext ∈ l :=
  ⟨rfl, current_in_chain demoCfg demoTick2
    (ReachKeepingCurrent.schedule demoTick1 demoTick2 8 demoRegs 2 (some 200)
      (ReachKeepingCurrent.schedule demoAB demoTick1 8 demoRegs 1 none
        (ReachKeepingCurrent.create demoA demoAB 8 demoArgsB
          (ReachKeepingCurrent.create demoInit demoA 8 demoArgsA
            (ReachKeepingCurrent.init boot demoInit 100 rfl)
            (fun l hl => by
              rw [isChain_unique hl (@isChain_of_chainFrom _ 8 _ [100] rfl)]
              decide)
            rfl)
          (fun l hl => by
            rw [isChain_unique hl (@isChain_of_chainFrom _ 8 _ [100, 200] rfl)]
            decide)
          rfl)
        rfl)
      rfl)⟩

/-- C11: in every state reachable from `thread_init (base)` by creates on context memory
outside the chain, `thread_exit`, `thread_kill`, `thread_set_priority` and ticks that
complete, the head pointer is still `base` and the chain is non-empty and starts with the
base record; a `thread_kill` for the pid of the base record and a `thread_exit` with the
base record current never return there. -/
theorem base_record_stays_head (cfg : Config) (base : Addr) (s : Kernel)
    (h : Reachable cfg base s) :
    s.listHead = base ∧ (∃ rest, IsChain s.mem s.listHead (base :: rest))
      ∧ (∀ fuel status s1, thread_kill fuel (pidAt s.mem base) s ≠ .ok (status, s1))
      ∧ (s.currentContext = base →
          ∀ fuel ret_code s1, thread_exit fuel ret_code s ≠ .ok s1) := by
  obtain ⟨hb, l, hch, hne⟩ := reachable_chain cfg h
  refine ⟨hb, ?_, ?_, ?_⟩
  · cases l with
    | nil => exact absurd rfl hne
    | cons x xs =>
      have hx : s.listHead = x := hch.1
      rw [← hx, hb] at hch
      rw [hb]
      exact ⟨xs, hch⟩
  · intro fuel status s1
    rw [← hb]
    exact thread_kill_head_pid hch hne
  · intro hcur fuel ret_code s1
    exact thread_exit_head hch (hcur.trans hb.symm)

/-- C11 at the example registry after two creates, two ticks and the `thread_exit` of `A`:
the chain is base, `B`; the base record has pid 0 and `thread_kill (0)` faults. -/
theorem base_record_stays_head_witness :
    chainOf 8 demoExit = some [100, 300]
      ∧ pidAt demoExit.mem 100 = 0
      ∧ (∀ fuel, thread_kill (fuel + 3) 0 demoExit = .error .badAccess)
      ∧ demoExit.listHead = 100
      ∧ (∃ rest, IsChain demoExit.mem demoExit.listHead (100 :: rest))
      ∧ (∀ fuel status s1,
          thread_kill fuel (pidAt demoExit.mem 100) demoExit ≠ .ok (status, s1))
      ∧ (demoExit.currentContext = 100 →
          ∀ fuel ret_code s1, thread_exit fuel ret_code demoExit ≠ .ok s1) :=
  ⟨rfl, rfl, fun _ => rfl, base_record_stays_head demoCfg 100 demoExit
    (Reachable.exit demoTick2 demoExit 8 0
      (Reachable.schedule demoTick1 demoTick2 8 demoRegs 2 (some 200)
        (Reachable.schedule demoAB demoTick1 8 demoRegs 1 none
          (Reachable.create demoA demoAB 8 demoArgsB
            (Reachable.create demoInit demoA 8 demoArgsA
              (Reachable.init boot demoInit rfl)
              (fun l hl => by
                rw [isChain_unique hl (@isChain_of_chainFrom _ 8 _ [100] rfl)]
                decide)
              rfl)
            (fun l hl => by
              rw [isChain_unique hl (@isChain_of_chainFrom _ 8 _ [100, 200] rfl)]
              decide)
            rfl)
          rfl)
        rfl)
      rfl)⟩

/-- C12: `thread_saveContext` on a readable current record stores `ss` and `useresp` of the
snapshot when `cs & 3 = 3`, and otherwise the kernel data selector and `esp + 0x14` modulo
`2^32`; in both cases `eip, cs, eflags, eax, ecx, edx, ebx, ebp, esi, edi, ds, es, fs, gs`
are those of the snapshot. -/
theorem saveContext_copies_snapshot (cfg : Config) (regs : registers_t) (s : Kernel)
    (c : ThreadContext) (hc : load s.mem s.currentContext = some c) :
    ∃ s1 c1, thread_saveContext cfg regs s = .ok s1
      ∧ s1.currentContext = s.currentContext
      ∧ load s1.mem s1.currentContext = some c1
      ∧ (regs.cs &&& 3 = 3 → c1.ss = regs.ss ∧ c1.esp = regs.useresp)
      ∧ (regs.cs &&& 3 ≠ 3 →
          c1.ss = cfg.GDT_KERNEL_DATA ∧ c1.esp = (regs.esp + 20) % 4294967296)
      ∧ c1.eip = regs.eip ∧ c1.cs = regs.cs ∧ c1.eflags = regs.eflags
      ∧ c1.eax = regs.eax ∧ c1.ecx = regs.ecx ∧ c1.edx = regs.edx ∧ c1.ebx = regs.ebx
      ∧ c1.ebp = regs.ebp ∧ c1.esi = regs.esi ∧ c1.edi = regs.edi
      ∧ c1.ds = regs.ds ∧ c1.es = regs.es ∧ c1.fs = regs.fs ∧ c1.gs = regs.gs := by
  have hc0 := ne_zero_of_load hc
  refine ⟨{ s with mem := write s.mem s.currentContext (saveInto cfg regs c) },
    saveInto cfg regs c, by simp only [thread_saveContext, hc], rfl,
    load_write_same _ _ _ hc0, ?_, ?_, ?_⟩
  · intro h3
    rw [land_three] at h3
    simp [saveInto, h3]
  · intro h3
    rw [land_three] at h3
    simp [saveInto, h3, wrap32]
  · unfold saveInto
    split <;> exact ⟨rfl, rfl, rfl, rfl, rfl, rfl, rfl, rfl, rfl, rfl, rfl, rfl, rfl, rfl⟩

/-- C12 at the example registry with `A` and `B`, for a snapshot taken in kernel mode
(`cs = 8`): the base record gets `ss = 16` and `esp = 32768 + 20`. -/
theorem saveContext_copies_snapshot_witness :
    ∃ s1 c1, thread_saveContext demoCfg demoRegs demoAB = .ok s1
      ∧ s1.currentContext = demoAB.currentContext
      ∧ load s1.mem s1.currentContext = some c1
      ∧ (demoRegs.cs &&& 3 = 3 → c1.ss = demoRegs.ss ∧ c1.esp = demoRegs.useresp)
      ∧ (demoRegs.cs &&& 3 ≠ 3 →
          c1.ss = demoCfg.GDT_KERNEL_DATA ∧ c1.esp = (demoRegs.esp + 20) % 4294967296)
      ∧ c1.eip = demoRegs.eip ∧ c1.cs = demoRegs.cs ∧ c1.eflags = demoRegs.eflags
      ∧ c1.eax = demoRegs.eax ∧ c1.ecx = demoRegs.ecx ∧ c1.edx = demoRegs.edx
      ∧ c1.ebx = demoRegs.ebx
      ∧ c1.ebp = demoRegs.ebp ∧ c1.esi = demoRegs.esi ∧ c1.edi = demoRegs.edi
      ∧ c1.ds = demoRegs.ds ∧ c1.es = demoRegs.es ∧ c1.fs = demoRegs.fs
      ∧ c1.gs = demoRegs.gs :=
  saveContext_copies_snapshot demoCfg demoRegs demoAB
    { zeroContext demoCfg with next := 200 } rfl

/-- C13 (the code departs from it): in the registry right after `thread_init`, which holds
the base record alone, `thread_show_info` prints the line of the base record and then reads
`search->next` with `search = NULL` instead of reporting the total 1. -/
theorem show_info_on_base_only_reads_through_null :
    chainOf 8 demoInit = some [100]
      ∧ thread_number_of_threads 8 demoInit = .ok 0
      ∧ ∀ fuel, thread_show_info (fuel + 1) demoInit = .error .badAccess :=
  ⟨rfl, rfl, fun _ => rfl⟩

/-- C14 (as stated it fails): with a stack of 10 bytes at 4096 and `arg = 0x01020304` the
two words are stored at 4100 and 4096 while `esp` is 4098, so the word at `esp` is not 0 and
the word at `esp + 4` is not `arg`; and with a stack of 16 bytes at `2^32 - 4` the stored
`esp` is 4, not `stackStart + stackSize - 8`. -/
theorem stack_image_fails_for_odd_size_and_wrap :
    create demoCfg 8 demoArgsOdd demoInit = .ok demoOdd
      ∧ (load demoOdd.mem 200).map (fun r => r.esp) = some 4098
      ∧ readWord demoOdd.stackBytes 4098 = 50593792
      ∧ readWord demoOdd.stackBytes (4098 + 4) = 258
      ∧ demoArgsOdd.arg = 16909060
      ∧ create demoCfg 8 demoArgsWrap demoInit = .ok demoWrap
      ∧ (load demoWrap.mem 200).map (fun r => r.esp) = some 4
      ∧ demoArgsWrap.stackStart + demoArgsWrap.stackSize - 8 = 4294967300 :=
  ⟨rfl, rfl, rfl, rfl, rfl, rfl, rfl, rfl⟩

/-- C14 (amended): after a create that returns, with 32-bit arguments and a stack size that
is at least 8 and a multiple of 4, every word of the stack region below the highest one is
zero, among them the sentinel right below the highest word; the highest word holds `arg`;
and the `esp` of the new record is `stackStart + stackSize - 8` modulo `2^32`, so that the
word at `esp` is 0 and the word at `esp + 4` is `arg`. -/
theorem stack_image_after_create (cfg : Config) (s s1 : Kernel)
    (fuel ctx stackStart stackSize entryPoint arg : Nat) (name : List Nat) (eflags : Nat)
    (hok : thread_create cfg fuel ctx stackStart stackSize entryPoint arg name eflags s
      = .ok s1)
    (hS : stackStart < 4294967296) (hZ : stackSize < 4294967296) (harg : arg < 4294967296)
    (h8 : 8 ≤ stackSize) (h4 : stackSize % 4 = 0) :
    (∀ i, i + 1 < stackSize / 4 → readWord s1.stackBytes (stackStart + 4 * i) = 0)
      ∧ readWord s1.stackBytes (stackStart + stackSize - 4) = arg
      ∧ ∃ rc, load s1.mem ctx = some rc
        ∧ rc.esp = (stackStart + stackSize - 8) % 4294967296
        ∧ readWord s1.stackBytes rc.esp = 0
        ∧ readWord s1.stackBytes (rc.esp + 4) = arg := by
  obtain ⟨hst, rc, hrc, hesp, _, _⟩ := thread_create_stack cfg hok
  have hA : wrap32 (stackSize / 4 + 4294967296 - 1) = stackSize / 4 - 1 := by
    unfold wrap32
    omega
  have hB : wrap32 (stackSize / 4 + 4294967296 - 2) = stackSize / 4 - 2 := by
    unfold wrap32
    omega
  have hb : s1.stackBytes
      = writeWord (writeWord (memsetZero s.stackBytes stackStart stackSize)
          (stackStart + 4 * (stackSize / 4 - 1)) arg)
          (stackStart + 4 * (stackSize / 4 - 2)) 0 := by
    rw [hst]
    simp only [buildStack, hA, hB]
  have hsent : readWord s1.stackBytes (stackStart + 4 * (stackSize / 4 - 2)) = 0 := by
    rw [hb]
    exact readWord_writeWord_same _ _ 0 (by norm_num)
  have htop : readWord s1.stackBytes (stackStart + 4 * (stackSize / 4 - 1)) = arg := by
    rw [hb, readWord_writeWord_other _ _ _ _ (by omega)]
    exact readWord_writeWord_same _ _ arg harg
  have hesp1 : rc.esp = (stackStart + stackSize - 8) % 4294967296 := by
    rw [hesp]
    unfold wrap32
    omega
  refine ⟨?_, ?_, rc, hrc, hesp1, ?_, ?_⟩
  · intro i hi
    by_cases hlast : i + 2 = stackSize / 4
    · have hi2 : i = stackSize / 4 - 2 := by omega
      rw [hi2]
      exact hsent
    · rw [hb, readWord_writeWord_other _ _ _ _ (by omega),
        readWord_writeWord_other _ _ _ _ (by omega)]
      exact readWord_memsetZero _ _ _ _ (by omega)
  · have he : stackStart + stackSize - 4 = stackStart + 4 * (stackSize / 4 - 1) := by omega
    rw [he]
    exact htop
  · rw [← hsent]
    apply readWord_congr
    rw [hesp1]
    unfold wrap32
    omega
  · rw [← htop]
    apply readWord_congr
    rw [hesp1]
    unfold wrap32
    omega

/-- C14 (amended) at the creation of the example thread `C` with a stack of 8192 bytes at
32768 and `arg = 0x01020304`: `esp` is 40952. -/
theorem stack_image_after_create_witness :
    (∀ i, i + 1 < 8192 / 4 → readWord demoKillThenC.stackBytes (32768 + 4 * i) = 0)
      ∧ readWord demoKillThenC.stackBytes (32768 + 8192 - 4) = 16909060
      ∧ ∃ rc, load demoKillThenC.mem 400 = some rc
        ∧ rc.esp = (32768 + 8192 - 8) % 4294967296
        ∧ readWord demoKillThenC.stackBytes rc.esp = 0
        ∧ readWord demoKillThenC.stackBytes (rc.esp + 4) = 16909060 :=
  stack_image_after_create demoCfg demoABkill1 demoKillThenC 8 400 32768 8192 3000 16909060
    [67] 514 rfl (by decide) (by decide) (by decide) (by decide) (by decide)

/-- C15 (the code departs from it): `thread_kill (1)` on the registry with `A` and `B` hands
`A`'s saved stack pointer 12280 and `A`'s record address 200 to `kfree`, while the stack
region of `A` starts at 4096; `thread_exit` of `A` does the same. -/
theorem kfree_gets_esp_not_stack_start :
    (load demoAB.mem 200).map (fun r => (r.stack_start, r.esp)) = some (4096, 12280)
      ∧ (thread_kill 8 1 demoAB).map (fun p => (p.1, p.2.freed)) = .ok (0, [12280, 200])
      ∧ (load demoTick2.mem 200).map (fun r => (r.stack_start, r.esp)) = some (4096, 12280)
      ∧ demoTick2.currentContext = 200
      ∧ (thread_exit 8 0 demoTick2).map (fun s => s.freed) = .ok [12280, 200] :=
  ⟨rfl, rfl, rfl, rfl, rfl⟩

/-- C16: with a non-zero quantum `q` and a readable, unarmed current record of priority
`p ≥ 0`, a tick at time `now` stores `next_switch = (now + q * p) mod 2^32` in that record,
changes nothing else, hands no context to `thread_switchToContext` and leaves the current
pointer and the head as they are. -/
theorem unarmed_tick_arms_with_weighted_deadline (cfg : Config) (s : Kernel)
    (fuel now q : Nat) (regs : registers_t) (rc : ThreadContext)
    (hq : thread_fair_schedule fuel s = .ok q) (hpos : q ≠ 0)
    (hrc : load s.mem s.currentContext = some rc) (hun : rc.next_switch = 0)
    (hp : 0 ≤ rc.priority) :
    ∃ s1, thread_schedule cfg fuel regs now s = .ok (s1, none)
      ∧ s1.currentContext = s.currentContext ∧ s1.listHead = s.listHead
      ∧ load s1.mem s.currentContext
          = some { rc with next_switch := (now + q * rc.priority.toNat) % 4294967296 }
      ∧ (rc.priority.toNat : Int) = rc.priority
      ∧ (∀ a, a ≠ s.currentContext → load s1.mem a = load s.mem a)
      ∧ s1.freed = s.freed ∧ s1.stackBytes = s.stackBytes := by
  have hc0 := ne_zero_of_load hrc
  have hstep := thread_schedule_unarmed cfg fuel regs now hq (Nat.pos_of_ne_zero hpos) hrc hun
  rw [armDeadline_nonneg q now hp] at hstep
  refine ⟨_, hstep, rfl, rfl, load_write_same _ _ _ hc0, Int.toNat_of_nonneg hp, ?_, rfl,
    rfl⟩
  intro a ha
  exact load_write_other _ _ _ _ ha

/-- C16 at the example registry with `A` and `B` (quantum 2) after the base record has set its
priority to 3: a tick at time 5 stores the deadline `5 + 2 * 3 = 11`. -/
theorem unarmed_tick_arms_with_weighted_deadline_witness :
    ∃ s1, thread_schedule demoCfg 8 demoRegs 5 demoAB3 = .ok (s1, none)
      ∧ s1.currentContext = demoAB3.currentContext ∧ s1.listHead = demoAB3.listHead
      ∧ load s1.mem demoAB3.currentContext
          = some { demoBase3 with
                   next_switch := (5 + 2 * demoBase3.priority.toNat) % 4294967296 }
      ∧ (demoBase3.priority.toNat : Int) = demoBase3.priority
      ∧ (∀ a, a ≠ demoAB3.currentContext → load s1.mem a = load demoAB3.mem a)
      ∧ s1.freed = demoAB3.freed ∧ s1.stackBytes = demoAB3.stackBytes :=
  unarmed_tick_arms_with_weighted_deadline demoCfg demoAB3 8 5 2 demoRegs demoBase3 rfl
    (by decide) rfl rfl (by decide)

/-- C17 (as stated it fails): in the registry with `A` and `B` (quantum 2) and an unarmed
current record of priority -1, a tick at time 5 executes the assignment guarded by the
nested `priority < 0` test and stores `clock () + 1 = 6`. -/
theorem nested_negative_branch_is_executed :
    thread_fair_schedule 8 demoABUrgent = .ok 2
      ∧ (load demoABUrgent.mem demoABUrgent.currentContext).map
          (fun r => (r.priority, r.next_switch)) = some (-1, 0)
      ∧ armDeadline 2 5 (-1) = (.urgent, 5 + 1)
      ∧ (thread_schedule demoCfg 8 demoRegs 5 demoABUrgent).map
          (fun p => (p.2, (load p.1.mem p.1.currentContext).map (fun r => r.next_switch)))
          = .ok (none, some 6) :=
  ⟨rfl, rfl, rfl, rfl⟩

/-- C17 (amended): a tick on a readable, unarmed current record with a non-zero quantum
stores the deadline of the arming step; that step never executes the last assignment
(`clock () + fair_schedule`, in the `else` of the nested `priority < 0` test), it executes
the assignment guarded by the nested test exactly when the priority is negative and the
first assignment exactly when it is not. -/
theorem last_arming_assignment_is_dead (cfg : Config) (s : Kernel) (fuel now q : Nat)
    (regs : registers_t) (rc : ThreadContext)
    (hq : thread_fair_schedule fuel s = .ok q) (hpos : q ≠ 0)
    (hrc : load s.mem s.currentContext = some rc) (hun : rc.next_switch = 0) :
    thread_schedule cfg fuel regs now s
        = .ok ({ s with
                 mem := write s.mem s.currentContext
                   { rc with next_switch := (armDeadline q now rc.priority).2 } }, none)
      ∧ (armDeadline q now rc.priority).1 ≠ .fallback
      ∧ ((armDeadline q now rc.priority).1 = .urgent ↔ rc.priority < 0)
      ∧ ((armDeadline q now rc.priority).1 = .weighted ↔ 0 ≤ rc.priority) := by
  refine ⟨thread_schedule_unarmed cfg fuel regs now hq (Nat.pos_of_ne_zero hpos) hrc hun,
    ?_, ?_, ?_⟩
  · unfold armDeadline
    split
    · simp
    · split
      · simp
      · omega
  · unfold armDeadline
    split
    · simp
      omega
    · split
      · simp
        omega
      · omega
  · unfold armDeadline
    split
    · simp
      omega
    · split
      · simp
        omega
      · omega

/-- C17 (amended) at the example registry with `A` and `B` and an unarmed current record of
priority -1. -/
theorem last_arming_assignment_is_dead_witness :
    thread_schedule demoCfg 8 demoRegs 5 demoABUrgent
        = .ok ({ demoABUrgent with
                 mem := write demoABUrgent.mem demoABUrgent.currentContext
                   { demoBaseUrgent with
                     next_switch := (armDeadline 2 5 demoBaseUrgent.priority).2 } }, none)
      ∧ (armDeadline 2 5 demoBaseUrgent.priority).1 ≠ .fallback
      ∧ ((armDeadline 2 5 demoBaseUrgent.priority).1 = .urgent ↔ demoBaseUrgent.priority < 0)
      ∧ ((armDeadline 2 5 demoBaseUrgent.priority).1 = .weighted
          ↔ 0 ≤ demoBaseUrgent.priority) :=
  last_arming_assignment_is_dead demoCfg demoABUrgent 8 5 2 demoRegs demoBaseUrgent rfl
    (by decide) rfl rfl

/-- C18: after `thread_init`, the creation of `A` (pid 1) and `B` (pid 2), `thread_kill (1)`
and the creation of `C`, the count before the last create was 1, so `C` got the pid 2: the
chain holds the two distinct records `B` and `C` with the same pid. -/
theorem pid_reused_after_kill :
    thread_init demoCfg 100 boot = .ok demoInit
      ∧ create demoCfg 8 demoArgsA demoInit = .ok demoA
      ∧ create demoCfg 8 demoArgsB demoA = .ok demoAB
      ∧ thread_kill 8 1 demoAB = .ok (0, demoABkill1)
      ∧ thread_number_of_threads 8 demoABkill1 = .ok 1
      ∧ create demoCfg 8 demoArgsC demoABkill1 = .ok demoKillThenC
      ∧ chainOf 8 demoKillThenC = some [100, 300, 400]
      ∧ pidAt demoKillThenC.mem 300 = 2 ∧ pidAt demoKillThenC.mem 400 = 2
      ∧ (300 : Addr) ≠ 400 :=
  ⟨rfl, rfl, rfl, rfl, rfl, rfl, rfl, rfl, rfl, by decide⟩

/-- C19 (the code departs from it): after `thread_init`, 100 creates, `thread_set_priority (1)`,
a tick at time 5 that arms the current record with the deadline 105, and one more create,
the current record is armed and not yet due at time 6, but the tick at time 6 does not
return: with 101 threads `thread_fair_schedule` divides by zero.  Before the last create
the same tick returned without a switch. -/
theorem idle_tick_faults_with_101_threads :
    thread_number_of_threads 102 crowd100Armed = .ok 100
      ∧ (thread_schedule demoCfg 102 demoRegs 6 crowd100Armed).map (fun p => p.2) = .ok none
      ∧ create demoCfg 102 crowdLast crowd100Armed = .ok crowd101Armed
      ∧ thread_number_of_threads 102 crowd101Armed = .ok 101
      ∧ (load crowd101Armed.mem crowd101Armed.currentContext).map
          (fun r => r.next_switch) = some 105
      ∧ thread_schedule demoCfg 102 demoRegs 6 crowd101Armed = .error .divByZero := by
  set_option maxRecDepth 1000000 in
  exact ⟨rfl, rfl, rfl, rfl, rfl, rfl⟩

/-- C20: on a chain with `n ≥ 1` created threads at 32-bit addresses the two divisors of
`thread_fair_schedule`, `n` and `100 / n`, are both non-zero exactly when `n ≤ 100`; for
`n ≤ 100` the result is `100 / (100 / n)`, between `n` and 100; for `n > 100` the first
quotient is 0 and the second division divides by zero. -/
theorem fair_schedule_divides_by_zero_above_100 (s : Kernel) (l : List Addr) (n fuel : Nat)
    (hch : IsChain s.mem s.listHead l) (hl : l.length = n + 1) (hn : 1 ≤ n)
    (hb : ∀ x ∈ l, x < 4294967296) (hfuel : n < fuel) :
    ((n ≠ 0 ∧ 100 / n ≠ 0) ↔ n ≤ 100)
      ∧ (n ≤ 100 → thread_fair_schedule fuel s = .ok (100 / (100 / n))
          ∧ n ≤ 100 / (100 / n) ∧ 100 / (100 / n) ≤ 100)
      ∧ (100 < n → 100 / n = 0 ∧ thread_fair_schedule fuel s = .error .divByZero) := by
  have hlen : l.length ≤ 4294967296 := nodup_length_le (isChain_nodup hch) hb
  have hq := thread_fair_schedule_chain fuel hch hl (by omega) hfuel
  rw [if_neg (by omega)] at hq
  refine ⟨?_, ?_, ?_⟩
  · constructor
    · rintro ⟨_, h2⟩
      by_contra hgt
      exact h2 (Nat.div_eq_of_lt (by omega))
    · intro hle
      exact ⟨by omega, (quantum_pos hn hle).1⟩
  · intro hle
    rw [if_neg (quantum_pos hn hle).1] at hq
    exact ⟨hq, quantum_bounds hn hle⟩
  · intro hgt
    have h0 : 100 / n = 0 := Nat.div_eq_of_lt hgt
    rw [if_pos h0] at hq
    exact ⟨h0, hq⟩

/-- C20 at the example registry with `A` and `B`, where the quantum for two created threads
is `100 / (100 / 2) = 2`, and at the registry with 101 created threads, where the second
division divides by zero. -/
theorem fair_schedule_divides_by_zero_above_100_witness :
    (((2 ≠ 0 ∧ 100 / 2 ≠ 0) ↔ 2 ≤ 100)
      ∧ (2 ≤ 100 → thread_fair_schedule 8 demoAB = .ok (100 / (100 / 2))
          ∧ 2 ≤ 100 / (100 / 2) ∧ 100 / (100 / 2) ≤ 100)
      ∧ (100 < 2 → 100 / 2 = 0 ∧ thread_fair_schedule 8 demoAB = .error .divByZero))
    ∧ (((101 ≠ 0 ∧ 100 / 101 ≠ 0) ↔ 101 ≤ 100)
      ∧ (101 ≤ 100 → thread_fair_schedule 102 crowded = .ok (100 / (100 / 101))
          ∧ 101 ≤ 100 / (100 / 101) ∧ 100 / (100 / 101) ≤ 100)
      ∧ (100 < 101 →
          100 / 101 = 0 ∧ thread_fair_schedule 102 crowded = .error .divByZero)) := by
  set_option maxRecDepth 1000000 in
  exact ⟨fair_schedule_divides_by_zero_above_100 demoAB [100, 200, 300] 2 8
      (@isChain_of_chainFrom _ 8 _ _ rfl) rfl (by decide) (by decide) (by decide),
    fair_schedule_divides_by_zero_above_100 crowded
      (100 :: (List.range 101).map (fun i => 1000 + i)) 101 102
      (@isChain_of_chainFrom _ 103 _ _ rfl) rfl (by decide) (by decide) (by decide)⟩

end Thread
